import Mathlib

/-!
# dingrobot: a webhook client with time-based request signing

A shallow embedding of `dingrobot.go` (package `dingrobot`).

Go strings and byte slices are lists of byte values (`List Nat`, every element
meant to be below 256).  The wall clock and the HTTP transport are explicit
parameters of the operations that use them.  The standard-library functions
the file calls (`fmt.Sprintf`, `crypto/hmac`, `crypto/sha256`,
`encoding/base64`, `net/url`, `encoding/json`) are embedded next to the
functions of the package itself, as executable definitions; `int` is taken
to be 64 bits wide.

The message structs (`textMessage`, `markdownMessage` and their parts) and the
constants `msgTypeText` and `msgTypeMarkdown` are declared outside
`dingrobot.go`; they are modelled from the wire format of the specification.

The file has three parts: the embedding, the notions the statements use (a
byte-level JSON grammar among them), and the theorems.
-/

namespace Dingrobot

/-- A Go `string` or `[]byte`: a sequence of bytes. -/
abbrev Bytes := List Nat

/-- UTF-8 encoding of one rune (`utf8.EncodeRune`); surrogates and values
above U+10FFFF are written as U+FFFD. -/
def encodeRune (r : Nat) : Bytes :=
  if r < 0x80 then [r]
  else if r < 0x800 then [0xC0 ||| (r >>> 6), 0x80 ||| (r &&& 0x3F)]
  else if 0x10FFFF < r ∨ (0xD800 ≤ r ∧ r ≤ 0xDFFF) then [0xEF, 0xBF, 0xBD]
  else if r < 0x10000 then
    [0xE0 ||| (r >>> 12), 0x80 ||| ((r >>> 6) &&& 0x3F), 0x80 ||| (r &&& 0x3F)]
  else
    [0xF0 ||| (r >>> 18), 0x80 ||| ((r >>> 12) &&& 0x3F),
     0x80 ||| ((r >>> 6) &&& 0x3F), 0x80 ||| (r &&& 0x3F)]

/-- The bytes of a string literal of the source (UTF-8). -/
def lit (s : String) : Bytes :=
  s.toList.flatMap fun c => encodeRune c.toNat

/-! ## `crypto/sha256` -/

/-- Words are 32 bits wide. -/
def w32 (x : Nat) : Nat := x % 4294967296

def rotr (x n : Nat) : Nat := w32 ((x >>> n) ||| (x <<< (32 - n)))

def bigSigma0 (x : Nat) : Nat := rotr x 2 ^^^ rotr x 13 ^^^ rotr x 22
def bigSigma1 (x : Nat) : Nat := rotr x 6 ^^^ rotr x 11 ^^^ rotr x 25
def smallSigma0 (x : Nat) : Nat := rotr x 7 ^^^ rotr x 18 ^^^ (x >>> 3)
def smallSigma1 (x : Nat) : Nat := rotr x 17 ^^^ rotr x 19 ^^^ (x >>> 10)

def ch (x y z : Nat) : Nat := (x &&& y) ^^^ ((x ^^^ 0xFFFFFFFF) &&& z)
def maj (x y z : Nat) : Nat := (x &&& y) ^^^ (x &&& z) ^^^ (y &&& z)

/-- The round constants `_K`. -/
def sha256K : List Nat :=
  [0x428a2f98, 0x71374491, 0xb5c0fbcf, 0xe9b5dba5, 0x3956c25b, 0x59f111f1, 0x923f82a4, 0xab1c5ed5,
   0xd807aa98, 0x12835b01, 0x243185be, 0x550c7dc3, 0x72be5d74, 0x80deb1fe, 0x9bdc06a7, 0xc19bf174,
   0xe49b69c1, 0xefbe4786, 0x0fc19dc6, 0x240ca1cc, 0x2de92c6f, 0x4a7484aa, 0x5cb0a9dc, 0x76f988da,
   0x983e5152, 0xa831c66d, 0xb00327c8, 0xbf597fc7, 0xc6e00bf3, 0xd5a79147, 0x06ca6351, 0x14292967,
   0x27b70a85, 0x2e1b2138, 0x4d2c6dfc, 0x53380d13, 0x650a7354, 0x766a0abb, 0x81c2c92e, 0x92722c85,
   0xa2bfe8a1, 0xa81a664b, 0xc24b8b70, 0xc76c51a3, 0xd192e819, 0xd6990624, 0xf40e3585, 0x106aa070,
   0x19a4c116, 0x1e376c08, 0x2748774c, 0x34b0bcb5, 0x391c0cb3, 0x4ed8aa4a, 0x5b9cca4f, 0x682e6ff3,
   0x748f82ee, 0x78a5636f, 0x84c87814, 0x8cc70208, 0x90befffa, 0xa4506ceb, 0xbef9a3f7, 0xc67178f2]

/-- The eight chaining words `a` .. `h`. -/
structure Sha256State where
  a : Nat
  b : Nat
  c : Nat
  d : Nat
  e : Nat
  f : Nat
  g : Nat
  h : Nat
  deriving DecidableEq, Repr

/-- The initial hash value (`init0` .. `init7`). -/
def sha256Init : Sha256State :=
  ⟨0x6A09E667, 0xBB67AE85, 0x3C6EF372, 0xA54FF53A, 0x510E527F, 0x9B05688C, 0x1F83D9AB, 0x5BE0CD19⟩

/-- Big-endian 32-bit words of a block. -/
def bytesToWords : Bytes → List Nat
  | b0 :: b1 :: b2 :: b3 :: rest =>
      w32 ((b0 % 256) <<< 24 ||| (b1 % 256) <<< 16 ||| (b2 % 256) <<< 8 ||| (b3 % 256))
        :: bytesToWords rest
  | _ => []

/-- Extends the schedule `w` (16 words at first) by `n` more words. -/
def extendSchedule : Nat → List Nat → List Nat
  | 0, w => w
  | n + 1, w =>
      let i := w.length
      let v := w32 (smallSigma1 (w.getD (i - 2) 0) + w.getD (i - 7) 0
                    + smallSigma0 (w.getD (i - 15) 0) + w.getD (i - 16) 0)
      extendSchedule n (w ++ [v])

/-- One round of the compression function. -/
def sha256Round (s : Sha256State) (kw : Nat × Nat) : Sha256State :=
  let t1 := w32 (s.h + bigSigma1 s.e + ch s.e s.f s.g + kw.1 + kw.2)
  let t2 := w32 (bigSigma0 s.a + maj s.a s.b s.c)
  ⟨w32 (t1 + t2), s.a, s.b, s.c, w32 (s.d + t1), s.e, s.f, s.g⟩

/-- Compression of one 64-byte block (`blockGeneric`, one iteration). -/
def sha256Block (s : Sha256State) (block : Bytes) : Sha256State :=
  let w := extendSchedule 48 (bytesToWords block)
  let t := (sha256K.zip w).foldl sha256Round s
  ⟨w32 (s.a + t.a), w32 (s.b + t.b), w32 (s.c + t.c), w32 (s.d + t.d),
   w32 (s.e + t.e), w32 (s.f + t.f), w32 (s.g + t.g), w32 (s.h + t.h)⟩

/-- Big-endian bytes of a 32-bit word. -/
def wordBytes (x : Nat) : Bytes :=
  [(x >>> 24) % 256, (x >>> 16) % 256, (x >>> 8) % 256, x % 256]

/-- Big-endian bytes of a 64-bit quantity. -/
def be64 (x : Nat) : Bytes :=
  wordBytes (x >>> 32) ++ wordBytes x

/-- Padding of `checkSum`: 0x80, zeros up to 56 mod 64, then the bit length. -/
def sha256Pad (msg : Bytes) : Bytes :=
  let n := msg.length
  msg ++ 0x80 :: List.replicate ((119 - n % 64) % 64) 0 ++ be64 ((n * 8) % 2 ^ 64)

/-- Runs the compression function over the blocks of `data`. -/
def sha256Blocks : Nat → Sha256State → Bytes → Sha256State
  | 0, s, _ => s
  | n + 1, s, data => sha256Blocks n (sha256Block s (data.take 64)) (data.drop 64)

/-- The digest `sha256.Sum256(msg)`: 32 bytes. -/
def sha256 (msg : Bytes) : Bytes :=
  let p := sha256Pad msg
  let s := sha256Blocks (p.length / 64) sha256Init p
  wordBytes s.a ++ wordBytes s.b ++ wordBytes s.c ++ wordBytes s.d ++
    wordBytes s.e ++ wordBytes s.f ++ wordBytes s.g ++ wordBytes s.h

/-! ## `crypto/hmac` -/

/-- The key block of `hmac.New`: keys longer than the block size are hashed
first, then the key is zero-padded to 64 bytes. -/
def hmacKeyBlock (key : Bytes) : Bytes :=
  let k := if 64 < key.length then sha256 key else key
  k ++ List.replicate (64 - k.length) 0

/-- The tag `hmac.New(sha256.New, key)`, `Write(msg)`, `Sum(nil)`. -/
def hmacSha256 (key msg : Bytes) : Bytes :=
  let kb := hmacKeyBlock key
  let ipad := kb.map fun b => b ^^^ 0x36
  let opad := kb.map fun b => b ^^^ 0x5c
  sha256 (opad ++ sha256 (ipad ++ msg))

/-! ## `encoding/base64` -/

/-- The alphabet of `base64.StdEncoding`. -/
def encodeStd : Bytes :=
  lit "ABCDEFGHIJKLMNOPQRSTUVWXYZabcdefghijklmnopqrstuvwxyz0123456789+/"

/-- The alphabet character of a six-bit value. -/
def b64Char (v : Nat) : Nat := encodeStd.getD (v &&& 0x3F) 0

/-- The encoding `base64.StdEncoding.EncodeToString`, with `=` padding. -/
def base64Std : Bytes → Bytes
  | b0 :: b1 :: b2 :: rest =>
      let v := (b0 % 256) <<< 16 ||| (b1 % 256) <<< 8 ||| (b2 % 256)
      b64Char (v >>> 18) :: b64Char (v >>> 12) :: b64Char (v >>> 6) :: b64Char v
        :: base64Std rest
  | [b0, b1] =>
      let v := (b0 % 256) <<< 16 ||| (b1 % 256) <<< 8
      [b64Char (v >>> 18), b64Char (v >>> 12), b64Char (v >>> 6), 61]
  | [b0] =>
      let v := (b0 % 256) <<< 16
      [b64Char (v >>> 18), b64Char (v >>> 12), 61, 61]
  | [] => []

/-! ## `net/url` -/

/-- The table `upperhex`. -/
def upperhex : Bytes := lit "0123456789ABCDEF"

/-- The predicate `shouldEscape(c, encodeQueryComponent)`: everything but the
unreserved characters is escaped. -/
def shouldEscape (c : Nat) : Bool :=
  if (97 ≤ c ∧ c ≤ 122) ∨ (65 ≤ c ∧ c ≤ 90) ∨ (48 ≤ c ∧ c ≤ 57) then false
  else if c = 45 ∨ c = 95 ∨ c = 46 ∨ c = 126 then false
  else true

/-- What `escape` writes for one byte in mode `encodeQueryComponent`. -/
def escapeByte (c : Nat) : Bytes :=
  if c = 32 then [43]
  else if shouldEscape c then [37, upperhex.getD (c >>> 4) 0, upperhex.getD (c &&& 15) 0]
  else [c]

/-- The function `url.QueryEscape`. -/
def queryEscape (s : Bytes) : Bytes := s.flatMap escapeByte

/-! ## `fmt` -/

/-- Decimal digits of `u`, most significant first, in front of `acc`
(the digit loop of `fmtInteger`). -/
def natDigits : Nat → Nat → Bytes → Bytes
  | 0, _, acc => acc
  | fuel + 1, u, acc =>
      if u < 10 then (48 + u) :: acc
      else natDigits fuel (u / 10) ((48 + u % 10) :: acc)

/-- The verb `%d` on an unsigned magnitude. -/
def formatNat (u : Nat) : Bytes := natDigits (u + 1) u []

/-- The verb `%d` of `fmt.Sprintf` on a signed integer. -/
def formatInt (i : Int) : Bytes :=
  if i < 0 then 45 :: formatNat i.natAbs else formatNat i.natAbs

/-! ## Signing (`dingrobot.go`) -/

/-- The function `computeHmacSha256(message, secret)`. -/
def computeHmacSha256 (message secret : Bytes) : Bytes :=
  let key := secret
  base64Std (hmacSha256 key message)

/-- The function `genSignedURL(secret)`; `now` is the reading of
`time.Now().UnixNano()`. -/
def genSignedURL (now : Int) (secret : Bytes) : Bytes :=
  let timeStr := formatInt (now.tdiv 1000000)
  let sign := timeStr ++ lit "\n" ++ secret
  let signData := computeHmacSha256 sign secret
  let encodeURL := queryEscape signData
  lit "&timestamp=" ++ timeStr ++ lit "&sign=" ++ encodeURL

/-! ## Errors -/

/-- The `error` values that `Send` can return. -/
inductive GoError where
  /-- An error of type `*json.UnsupportedTypeError`, from `json.Marshal`. -/
  | unsupportedType
  /-- An error of `http.Post` or of `ioutil.ReadAll`, identified by a tag. -/
  | transport (tag : Nat)
  /-- An error of type `*json.SyntaxError`, from `json.Unmarshal`. -/
  | syntaxError
  /-- An error of type `*json.UnmarshalTypeError`: the JSON value and the
  field of `dingResponse` it could not be stored in (empty for the struct). -/
  | unmarshalType (value : Bytes) (field : Bytes)
  /-- An error made by `fmt.Errorf`, with its text. -/
  | errorf (msg : Bytes)
  deriving DecidableEq, Repr

/-! ## `unicode/utf8` -/

/-- The part of `utf8.DecodeRune` after the look-up of the first byte `p0` in
the table `first`: `sz` is the width announced by `p0`, and `lo` and `hi`
bound the second byte (`acceptRanges`). -/
def decodeRuneTail (p0 sz lo hi : Nat) (rest : Bytes) : Nat × Nat :=
  if rest.length + 1 < sz then (0xFFFD, 1)
  else
    let b1 := rest.getD 0 0
    let b2 := rest.getD 1 0
    let b3 := rest.getD 2 0
    if b1 < lo ∨ hi < b1 then (0xFFFD, 1)
    else if sz ≤ 2 then ((p0 &&& 0x1F) <<< 6 ||| (b1 &&& 0x3F), 2)
    else if b2 < 0x80 ∨ 0xBF < b2 then (0xFFFD, 1)
    else if sz ≤ 3 then
      ((p0 &&& 0x0F) <<< 12 ||| (b1 &&& 0x3F) <<< 6 ||| (b2 &&& 0x3F), 3)
    else if b3 < 0x80 ∨ 0xBF < b3 then (0xFFFD, 1)
    else
      ((p0 &&& 0x07) <<< 18 ||| (b1 &&& 0x3F) <<< 12 ||| (b2 &&& 0x3F) <<< 6
        ||| (b3 &&& 0x3F), 4)

/-- The function `utf8.DecodeRune`: the rune at the front of `p` and its
width; malformed input gives `(U+FFFD, 1)`, empty input `(U+FFFD, 0)`. -/
def decodeRune : Bytes → Nat × Nat
  | [] => (0xFFFD, 0)
  | p0 :: rest =>
      if p0 < 0x80 then (p0, 1)
      else if p0 < 0xC2 ∨ 0xF4 < p0 then (0xFFFD, 1)
      else
        decodeRuneTail p0
          (if p0 < 0xE0 then 2 else if p0 < 0xF0 then 3 else 4)
          (if p0 = 0xE0 then 0xA0 else if p0 = 0xF0 then 0x90 else 0x80)
          (if p0 = 0xED then 0x9F else if p0 = 0xF4 then 0x8F else 0xBF)
          rest

/-! ## `encoding/json`: encoding -/

/-- The Go values a message can be made of, as far as `json.Marshal` tells
them apart. -/
inductive GoVal where
  /-- A value of a kind that cannot be encoded (channel, function, complex). -/
  | unsupported
  /-- A nil pointer, nil slice or nil interface. -/
  | null
  | bool (b : Bool)
  | int (i : Int)
  | str (s : Bytes)
  /-- A non-nil slice, or an array. -/
  | slice (xs : List GoVal)
  /-- A struct: its exported fields in declaration order, each under the name
  of its `json` tag. -/
  | struct (fields : List (Bytes × GoVal))
  /-- A non-nil pointer. -/
  | ptr (v : GoVal)

/-- The table `hex` of the encoder. -/
def hex : Bytes := lit "0123456789abcdef"

/-- The table `htmlSafeSet`: the ASCII bytes written without escaping. -/
def htmlSafe (b : Nat) : Bool :=
  decide (0x20 ≤ b ∧ b < 0x80 ∧ b ≠ 34 ∧ b ≠ 92 ∧ b ≠ 60 ∧ b ≠ 62 ∧ b ≠ 38)

/-- The escape of an ASCII byte outside `htmlSafeSet` (backspace and form feed
have their short escapes, as Go 1.22 and later write them). -/
def escapeAscii (b : Nat) : Bytes :=
  if b = 92 ∨ b = 34 then [92, b]
  else if b = 8 then [92, 98]
  else if b = 12 then [92, 102]
  else if b = 10 then [92, 110]
  else if b = 13 then [92, 114]
  else if b = 9 then [92, 116]
  else [92, 117, 48, 48, hex.getD (b >>> 4) 0, hex.getD (b &&& 0xF) 0]

/-- The body of `appendString` with HTML escaping on: the characters of a
JSON string literal for `src`, without the enclosing quotes.  Malformed UTF-8
is written as the escape of U+FFFD, and U+2028 and U+2029 are escaped. -/
def appendString : Nat → Bytes → Bytes
  | 0, _ => []
  | _ + 1, [] => []
  | fuel + 1, b :: rest =>
      if b < 0x80 then
        (if htmlSafe b then [b] else escapeAscii b) ++ appendString fuel rest
      else
        let cs := decodeRune (b :: rest)
        if cs.1 = 0xFFFD ∧ cs.2 = 1 then
          [92, 117, 102, 102, 102, 100] ++ appendString fuel rest
        else if cs.1 = 0x2028 ∨ cs.1 = 0x2029 then
          [92, 117, 50, 48, 50, hex.getD (cs.1 &&& 0xF) 0]
            ++ appendString fuel ((b :: rest).drop cs.2)
        else
          (b :: rest).take cs.2 ++ appendString fuel ((b :: rest).drop cs.2)

/-- The JSON string literal that `json.Marshal` writes for a Go string. -/
def jsonString (s : Bytes) : Bytes :=
  [34] ++ appendString s.length s ++ [34]

/-- Joins encoded elements with commas. -/
def commaJoin : List Bytes → Bytes
  | [] => []
  | [x] => x
  | x :: y :: rest => x ++ [44] ++ commaJoin (y :: rest)

/-- The function `json.Marshal`. -/
def Marshal : GoVal → Except GoError Bytes
  | .unsupported => .error .unsupportedType
  | .null => .ok (lit "null")
  | .bool b => .ok (if b then lit "true" else lit "false")
  | .int i => .ok (formatInt i)
  | .str s => .ok (jsonString s)
  | .slice xs => do
      let es ← elems xs
      pure ([91] ++ commaJoin es ++ [93])
  | .struct fs => do
      let es ← members fs
      pure ([123] ++ commaJoin es ++ [125])
  | .ptr v => Marshal v
where
  /-- The encodings of the elements of a slice. -/
  elems : List GoVal → Except GoError (List Bytes)
    | [] => .ok []
    | x :: xs => do
        let e ← Marshal x
        let es ← elems xs
        pure (e :: es)
  /-- The encodings `"name":value` of the fields of a struct. -/
  members : List (Bytes × GoVal) → Except GoError (List Bytes)
    | [] => .ok []
    | (k, x) :: fs => do
        let e ← Marshal x
        let es ← members fs
        pure ((jsonString k ++ [58] ++ e) :: es)

/-! ## `encoding/json`: decoding -/

/-- A parsed JSON value.  A number keeps its literal, a string and an object
key hold the bytes after unquoting. -/
inductive JValue where
  | null
  | bool (b : Bool)
  | num (literal : Bytes)
  | str (s : Bytes)
  | arr (elems : List JValue)
  | obj (members : List (Bytes × JValue))

/-- The predicate `isSpace` of the scanner. -/
def isSpace (c : Nat) : Bool := c = 32 || c = 9 || c = 13 || c = 10

/-- Drops leading white space. -/
def skipSpace : Bytes → Bytes
  | [] => []
  | c :: rest => if isSpace c then skipSpace rest else c :: rest

/-- The value of a hexadecimal digit. -/
def hexVal (c : Nat) : Option Nat :=
  if 48 ≤ c ∧ c ≤ 57 then some (c - 48)
  else if 97 ≤ c ∧ c ≤ 102 then some (c - 97 + 10)
  else if 65 ≤ c ∧ c ≤ 70 then some (c - 65 + 10)
  else none

/-- The function `getu4`: the code unit of an escape `\uXXXX` at the front of
the input. -/
def getu4 : Bytes → Option Nat
  | 92 :: 117 :: h1 :: h2 :: h3 :: h4 :: _ => do
      let a ← hexVal h1
      let b ← hexVal h2
      let c ← hexVal h3
      let d ← hexVal h4
      pure (a * 4096 + b * 256 + c * 16 + d)
  | _ => none

/-- The function `utf16.DecodeRune` on a pair of code units (the second may
be missing). -/
def utf16Decode (r1 : Nat) (r2 : Option Nat) : Nat :=
  match r2 with
  | some r2 =>
      if 0xD800 ≤ r1 ∧ r1 < 0xDC00 ∧ 0xDC00 ≤ r2 ∧ r2 < 0xE000 then
        ((r1 - 0xD800) <<< 10 ||| (r2 - 0xDC00)) + 0x10000
      else 0xFFFD
  | none => 0xFFFD

/-- Scans a string literal after its opening quote and unquotes it
(`stateInString` and `unquoteBytes`): the unquoted bytes and the input after
the closing quote. -/
def scanString : Nat → Bytes → Bytes → Option (Bytes × Bytes)
  | 0, _, _ => none
  | _ + 1, [], _ => none
  | fuel + 1, c :: rest, acc =>
      if c = 34 then some (acc, rest)
      else if c = 92 then
        match rest with
        | [] => none
        | e :: rest1 =>
            if e = 34 ∨ e = 92 ∨ e = 47 then scanString fuel rest1 (acc ++ [e])
            else if e = 98 then scanString fuel rest1 (acc ++ [8])
            else if e = 102 then scanString fuel rest1 (acc ++ [12])
            else if e = 110 then scanString fuel rest1 (acc ++ [10])
            else if e = 114 then scanString fuel rest1 (acc ++ [13])
            else if e = 116 then scanString fuel rest1 (acc ++ [9])
            else if e = 117 then
              match getu4 (c :: rest) with
              | none => none
              | some rr =>
                  if 0xD800 ≤ rr ∧ rr < 0xE000 then
                    let dec := utf16Decode rr (getu4 (rest1.drop 4))
                    if dec ≠ 0xFFFD then
                      scanString fuel (rest1.drop 10) (acc ++ encodeRune dec)
                    else scanString fuel (rest1.drop 4) (acc ++ encodeRune 0xFFFD)
                  else scanString fuel (rest1.drop 4) (acc ++ encodeRune rr)
            else none
      else if c < 0x20 then none
      else if c < 0x80 then scanString fuel rest (acc ++ [c])
      else
        let cs := decodeRune (c :: rest)
        scanString fuel ((c :: rest).drop cs.2) (acc ++ encodeRune cs.1)

/-- Whether `c` is a decimal digit. -/
def isDigit (c : Nat) : Bool := decide (48 ≤ c ∧ c ≤ 57)

/-- Splits off the longest prefix of digits. -/
def spanDigits : Bytes → Bytes × Bytes
  | [] => ([], [])
  | c :: rest =>
      if isDigit c then ((spanDigits rest).1.cons c, (spanDigits rest).2)
      else ([], c :: rest)

/-- The integer part of a number (`state0`, `state1`): a single `0`, or a
digit from 1 to 9 and the digits after it. -/
def scanInt : Bytes → Option (Bytes × Bytes)
  | [] => none
  | c :: rest =>
      if c = 48 then some ([48], rest)
      else if isDigit c then some (c :: (spanDigits rest).1, (spanDigits rest).2)
      else none

/-- The optional fraction of a number (`stateDot`, `stateDot0`). -/
def scanFrac : Bytes → Option (Bytes × Bytes)
  | [] => some ([], [])
  | c :: rest =>
      if c = 46 then
        if (spanDigits rest).1 = [] then none
        else some (46 :: (spanDigits rest).1, (spanDigits rest).2)
      else some ([], c :: rest)

/-- The optional sign of an exponent (`stateE`). -/
def scanExpSign : Bytes → Bytes × Bytes
  | [] => ([], [])
  | s :: rest => if s = 43 ∨ s = 45 then ([s], rest) else ([], s :: rest)

/-- The optional exponent of a number (`stateE`, `stateESign`, `stateE0`). -/
def scanExp : Bytes → Option (Bytes × Bytes)
  | [] => some ([], [])
  | e :: rest =>
      if e = 101 ∨ e = 69 then
        if (spanDigits (scanExpSign rest).2).1 = [] then none
        else some (e :: (scanExpSign rest).1 ++ (spanDigits (scanExpSign rest).2).1,
          (spanDigits (scanExpSign rest).2).2)
      else some ([], e :: rest)

/-- The optional minus of a number (`stateNeg`). -/
def scanMinus : Bytes → Bytes × Bytes
  | [] => ([], [])
  | c :: rest => if c = 45 then ([45], rest) else ([], c :: rest)

/-- Scans a number literal: the literal and the input after it. -/
def scanNumber (bs : Bytes) : Option (Bytes × Bytes) :=
  match scanInt (scanMinus bs).2 with
  | none => none
  | some (ip, r1) =>
      match scanFrac r1 with
      | none => none
      | some (fp, r2) =>
          match scanExp r2 with
          | none => none
          | some (ep, r3) => some ((scanMinus bs).1 ++ ip ++ fp ++ ep, r3)

/-- The limit `maxNestingDepth` of the scanner. -/
def maxNestingDepth : Nat := 10000

/-- The elements of an array after its first value has been announced:
`pv` parses one value. -/
def scanElems (pv : Bytes → Option (JValue × Bytes)) :
    Nat → Bytes → List JValue → Option (JValue × Bytes)
  | 0, _, _ => none
  | n + 1, bs, acc =>
      match pv bs with
      | none => none
      | some (v, r1) =>
          match skipSpace r1 with
          | 44 :: r2 => scanElems pv n r2 (acc ++ [v])
          | 93 :: r2 => some (.arr (acc ++ [v]), r2)
          | _ => none

/-- The members of an object, from a key on: `pv` parses one value. -/
def scanMembers (pv : Bytes → Option (JValue × Bytes)) :
    Nat → Bytes → List (Bytes × JValue) → Option (JValue × Bytes)
  | 0, _, _ => none
  | n + 1, bs, acc =>
      match skipSpace bs with
      | 34 :: r0 =>
          match scanString r0.length r0 [] with
          | none => none
          | some (k, r1) =>
              match skipSpace r1 with
              | 58 :: r2 =>
                  match pv r2 with
                  | none => none
                  | some (v, r3) =>
                      match skipSpace r3 with
                      | 44 :: r4 => scanMembers pv n r4 (acc ++ [(k, v)])
                      | 125 :: r4 => some (.obj (acc ++ [(k, v)]), r4)
                      | _ => none
              | _ => none
      | _ => none

/-- Scans one JSON value at nesting depth `depth`, white space before it
skipped (`stateBeginValue` and what follows it): the value and the input
after it. -/
def scanValue : Nat → Nat → Bytes → Option (JValue × Bytes)
  | 0, _, _ => none
  | fuel + 1, depth, bs =>
      match skipSpace bs with
      | [] => none
      | c :: rest =>
          if c = 123 then
            if maxNestingDepth < depth + 1 then none
            else if (skipSpace rest).head? = some 125 then some (.obj [], (skipSpace rest).tail)
            else
              scanMembers (scanValue fuel (depth + 1)) (skipSpace rest).length (skipSpace rest) []
          else if c = 91 then
            if maxNestingDepth < depth + 1 then none
            else if (skipSpace rest).head? = some 93 then some (.arr [], (skipSpace rest).tail)
            else
              scanElems (scanValue fuel (depth + 1)) (skipSpace rest).length (skipSpace rest) []
          else if c = 34 then
            match scanString rest.length rest [] with
            | none => none
            | some (s, r1) => some (.str s, r1)
          else if c = 116 then
            if rest.take 3 = [114, 117, 101] then some (.bool true, rest.drop 3) else none
          else if c = 102 then
            if rest.take 4 = [97, 108, 115, 101] then some (.bool false, rest.drop 4) else none
          else if c = 110 then
            if rest.take 3 = [117, 108, 108] then some (.null, rest.drop 3) else none
          else
            match scanNumber (c :: rest) with
            | none => none
            | some (l, r1) => some (.num l, r1)

/-- The syntax check and parse of a whole input (`checkValid` and the
decoder's walk): one JSON value, white space around it allowed, nothing
else.  `none` is a syntax error. -/
def parseJSON (data : Bytes) : Option JValue :=
  match scanValue (data.length + 1) 0 data with
  | none => none
  | some (v, rest) => if skipSpace rest = [] then some v else none

/-- The struct `dingResponse`; `int` is 64 bits wide. -/
structure dingResponse where
  Errcode : Int
  Errmsg : Bytes
  deriving DecidableEq, Repr

/-- The fields of `dingResponse`. -/
inductive Field where
  | errcode
  | errmsg
  deriving DecidableEq, Repr

/-- The name of a field in its `json` tag. -/
def Field.tag : Field → Bytes
  | .errcode => lit "errcode"
  | .errmsg => lit "errmsg"

/-- Upper case of an ASCII letter, other bytes unchanged. -/
def upperAscii (c : Nat) : Nat := if 97 ≤ c ∧ c ≤ 122 then c - 32 else c

/-- The test `bytes.EqualFold(name, key)` for a name of ASCII letters: an
ASCII byte of the key matches the same letter in either case, and the only
other runes that fold to an ASCII letter are U+017F (to `s`) and U+212A
(to `k`). -/
def equalFold : Nat → Bytes → Bytes → Bool
  | 0, _, _ => false
  | _ + 1, [], key => decide (key = [])
  | _ + 1, _ :: _, [] => false
  | fuel + 1, sb :: name, tb :: key =>
      if tb < 0x80 then
        if upperAscii sb = upperAscii tb then equalFold fuel name key else false
      else
        let cs := decodeRune (tb :: key)
        if (upperAscii sb = 83 ∧ cs.1 = 0x17F) ∨ (upperAscii sb = 75 ∧ cs.1 = 0x212A) then
          equalFold fuel name ((tb :: key).drop cs.2)
        else false

/-- The field of `dingResponse` an object key is stored in: an exact match of
the tag is preferred, a case-insensitive match is accepted. -/
def fieldOf (key : Bytes) : Option Field :=
  if key = Field.errcode.tag then some .errcode
  else if key = Field.errmsg.tag then some .errmsg
  else if equalFold (key.length + 1) Field.errcode.tag key then some .errcode
  else if equalFold (key.length + 1) Field.errmsg.tag key then some .errmsg
  else none

/-- Value of a string of decimal digits, `none` if another byte occurs or the
string is empty. -/
def digitsValue : Bytes → Option Nat
  | [] => none
  | ds => ds.foldl (fun acc c =>
      match acc with
      | none => none
      | some v => if isDigit c then some (v * 10 + (c - 48)) else none) (some 0)

/-- The call `strconv.ParseInt(s, 10, 64)`; `none` stands for its errors
(syntax or range). -/
def parseInt64 (s : Bytes) : Option Int :=
  match s with
  | 45 :: ds =>
      match digitsValue ds with
      | some v => if v ≤ 2 ^ 63 then some (-(v : Int)) else none
      | none => none
  | 43 :: ds =>
      match digitsValue ds with
      | some v => if v < 2 ^ 63 then some (v : Int) else none
      | none => none
  | ds =>
      match digitsValue ds with
      | some v => if v < 2 ^ 63 then some (v : Int) else none
      | none => none

/-- The decoder's state: the value being filled and the first error saved by
`saveError`. -/
structure decodeState where
  dr : dingResponse
  savedError : Option GoError
  deriving DecidableEq, Repr

/-- The method `saveError`: keeps the first error. -/
def decodeState.saveError (d : decodeState) (e : GoError) : decodeState :=
  match d.savedError with
  | none => { d with savedError := some e }
  | some _ => d

/-- Stores a JSON value into a field (`literalStore`, and `array` and
`object` on a field that is neither).  `null` leaves the field as it is; a
value of another kind than the field's saves a type error. -/
def storeField (d : decodeState) (f : Field) (v : JValue) : decodeState :=
  match f, v with
  | _, .null => d
  | .errcode, .num l =>
      match parseInt64 l with
      | some n => { d with dr := { d.dr with Errcode := n } }
      | none => d.saveError (.unmarshalType (lit "number " ++ l) f.tag)
  | .errmsg, .num _ => d.saveError (.unmarshalType (lit "number") f.tag)
  | .errmsg, .str s => { d with dr := { d.dr with Errmsg := s } }
  | .errcode, .str _ => d.saveError (.unmarshalType (lit "string") f.tag)
  | _, .bool _ => d.saveError (.unmarshalType (lit "bool") f.tag)
  | _, .arr _ => d.saveError (.unmarshalType (lit "array") f.tag)
  | _, .obj _ => d.saveError (.unmarshalType (lit "object") f.tag)

/-- The walk of `object` over the members: a member whose key names a field
is stored there, any other member is skipped. -/
def storeMembers (d : decodeState) : List (Bytes × JValue) → decodeState
  | [] => d
  | (k, v) :: rest =>
      match fieldOf k with
      | some f => storeMembers (storeField d f v) rest
      | none => storeMembers d rest

/-- The method `value` on the struct itself: an object is walked, `null`
changes nothing, any other value is a type error. -/
def storeValue (d : decodeState) : JValue → decodeState
  | .obj ms => storeMembers d ms
  | .null => d
  | .bool _ => d.saveError (.unmarshalType (lit "bool") [])
  | .num _ => d.saveError (.unmarshalType (lit "number") [])
  | .str _ => d.saveError (.unmarshalType (lit "string") [])
  | .arr _ => d.saveError (.unmarshalType (lit "array") [])

/-- The call `json.Unmarshal(data, &dr)` on `var dr dingResponse`: the error,
or the filled struct. -/
def Unmarshal (data : Bytes) : Except GoError dingResponse :=
  match parseJSON data with
  | none => .error .syntaxError
  | some v =>
      let d := storeValue ⟨⟨0, []⟩, none⟩ v
      match d.savedError with
      | some e => .error e
      | none => .ok d.dr

/-! ## The client (`dingrobot.go`) -/

/-- The struct `Robot`. -/
structure Robot where
  webHook : Bytes
  secret : Bytes
  deriving DecidableEq, Repr

/-- The constructor `NewRobot(webHook)`. -/
def NewRobot (webHook : Bytes) : Robot :=
  { webHook := webHook, secret := [] }

/-- The method `SetSecret(secret)`. -/
def Robot.SetSecret (r : Robot) (secret : Bytes) : Robot :=
  { r with secret := secret }

/-- The request of one call `http.Post(url, contentType, body)`. -/
structure Request where
  url : Bytes
  contentType : Bytes
  body : Bytes
  deriving DecidableEq, Repr

/-- What came back when `http.Post` returned no error: the status code, and
the outcome of `ioutil.ReadAll(resp.Body)`. -/
structure Response where
  statusCode : Nat
  body : Except GoError Bytes

/-- The transport: the outcome of `http.Post` for a request. -/
abbrev Transport := Request → Except GoError Response

/-- The outcome of a call of `Send`: the receiver after the call, the
requests handed to `http.Post` during it, and the returned `error`
(`none` is `nil`). -/
structure SendResult where
  robot : Robot
  posted : List Request
  err : Option GoError

/-- The method `Send(msg)`; `now` is what `time.Now().UnixNano()` reads
during the call and `post` is the transport. -/
def Robot.Send (now : Int) (post : Transport) (r : Robot) (msg : GoVal) : SendResult :=
  match Marshal msg with
  | .error err => ⟨r, [], some err⟩
  | .ok m =>
      let webURL := r.webHook
      let webURL := if r.secret ≠ [] then webURL ++ genSignedURL now r.secret else webURL
      let req : Request := ⟨webURL, lit "application/json", m⟩
      match post req with
      | .error err => ⟨r, [req], some err⟩
      | .ok resp =>
          match resp.body with
          | .error err => ⟨r, [req], some err⟩
          | .ok data =>
              match Unmarshal data with
              | .error err => ⟨r, [req], some err⟩
              | .ok dr =>
                  if dr.Errcode ≠ 0 then
                    ⟨r, [req], some (.errorf (lit "dingrobot send failed: " ++ dr.Errmsg))⟩
                  else ⟨r, [req], none⟩

/-- Modelled from the spec: the constant `msgTypeMarkdown`, declared outside
`dingrobot.go`; the value of `msgtype` in the body of the markdown variant. -/
def msgTypeMarkdown : Bytes := lit "markdown"

/-- Modelled from the spec: the constant `msgTypeText`, declared outside
`dingrobot.go`; the value of `msgtype` in the body of the text variant. -/
def msgTypeText : Bytes := lit "text"

/-- Modelled from the spec: the struct `markdownParams`, declared outside
`dingrobot.go`; its fields are written under the keys `title` and `text`. -/
def markdownParams (Title Text : Bytes) : GoVal :=
  .struct [(lit "title", .str Title), (lit "text", .str Text)]

/-- Modelled from the spec: the struct `markdownMessage`, declared outside
`dingrobot.go`; its fields are written under the keys `msgtype` and
`markdown`. -/
def markdownMessage (MsgType : Bytes) (Markdown : GoVal) : GoVal :=
  .struct [(lit "msgtype", .str MsgType), (lit "markdown", Markdown)]

/-- Modelled from the spec: the struct `textParams`, declared outside
`dingrobot.go`; its field is written under the key `content`. -/
def textParams (Content : Bytes) : GoVal :=
  .struct [(lit "content", .str Content)]

/-- A Go value of type `[]string`: `none` is the nil slice. -/
def stringSlice : Option (List Bytes) → GoVal
  | none => .null
  | some xs => .slice (xs.map GoVal.str)

/-- Modelled from the spec: the struct `atParams`, declared outside
`dingrobot.go`; its fields are written under the keys `atMobiles` and
`isAtAll`, both always present. -/
def atParams (AtMobiles : Option (List Bytes)) (IsAtAll : Bool) : GoVal :=
  .struct [(lit "atMobiles", stringSlice AtMobiles), (lit "isAtAll", .bool IsAtAll)]

/-- Modelled from the spec: the struct `textMessage`, declared outside
`dingrobot.go`; its fields are written under the keys `msgtype`, `text` and
`at`. -/
def textMessage (MsgType : Bytes) (Text At : GoVal) : GoVal :=
  .struct [(lit "msgtype", .str MsgType), (lit "text", Text), (lit "at", At)]

/-- The method `SendMarkdown(title, text)`. -/
def Robot.SendMarkdown (now : Int) (post : Transport) (r : Robot) (title text : Bytes) :
    SendResult :=
  r.Send now post (.ptr (markdownMessage msgTypeMarkdown (markdownParams title text)))

/-- The method `SendText(content, atMobiles, isAtAll)`. -/
def Robot.SendText (now : Int) (post : Transport) (r : Robot) (content : Bytes)
    (atMobiles : Option (List Bytes)) (isAtAll : Bool) : SendResult :=
  r.Send now post (.ptr (textMessage msgTypeText (textParams content)
    (atParams atMobiles isAtAll)))


/-! ## The JSON grammar (RFC 8259), on bytes -/

/-- White space: spaces, tabs, carriage returns and line feeds only. -/
def IsWS (l : Bytes) : Prop := ∀ c ∈ l, c = 32 ∨ c = 9 ∨ c = 13 ∨ c = 10

/-- A hexadecimal digit. -/
def IsHexDigit (c : Nat) : Prop :=
  (48 ≤ c ∧ c ≤ 57) ∨ (97 ≤ c ∧ c ≤ 102) ∨ (65 ≤ c ∧ c ≤ 70)

/-- The characters between the quotes of a string: unescaped bytes from 0x20
on other than `"` and `\`, two-character escapes, and `\u` with four
hexadecimal digits.  The encoding of bytes from 0x80 on is not part of the
grammar. -/
inductive IsStringBody : Bytes → Prop where
  | nil : IsStringBody []
  | char (c : Nat) (rest : Bytes) :
      0x20 ≤ c → c ≠ 34 → c ≠ 92 → IsStringBody rest → IsStringBody (c :: rest)
  | esc (e : Nat) (rest : Bytes) :
      e = 34 ∨ e = 92 ∨ e = 47 ∨ e = 98 ∨ e = 102 ∨ e = 110 ∨ e = 114 ∨ e = 116 →
      IsStringBody rest → IsStringBody (92 :: e :: rest)
  | uni (h1 h2 h3 h4 : Nat) (rest : Bytes) :
      IsHexDigit h1 → IsHexDigit h2 → IsHexDigit h3 → IsHexDigit h4 →
      IsStringBody rest → IsStringBody (92 :: 117 :: h1 :: h2 :: h3 :: h4 :: rest)

/-- A non-empty run of decimal digits. -/
def IsDigits (l : Bytes) : Prop := l ≠ [] ∧ ∀ c ∈ l, 48 ≤ c ∧ c ≤ 57

/-- A number: an optional minus, an integer part without a leading zero
(unless it is `0`), an optional fraction and an optional exponent. -/
def IsNumber (l : Bytes) : Prop :=
  ∃ sign ip fp ep : Bytes, l = sign ++ ip ++ fp ++ ep
    ∧ (sign = [] ∨ sign = [45])
    ∧ (ip = [48] ∨ (IsDigits ip ∧ ip.head? ≠ some 48))
    ∧ (fp = [] ∨ ∃ ds, IsDigits ds ∧ fp = 46 :: ds)
    ∧ (ep = [] ∨ ∃ e sg ds, (e = 101 ∨ e = 69) ∧ (sg = [] ∨ sg = [43] ∨ sg = [45])
        ∧ IsDigits ds ∧ ep = e :: sg ++ ds)

mutual
/-- A JSON value, without white space around it. -/
inductive IsValue : Bytes → Prop where
  | null : IsValue [110, 117, 108, 108]
  | true : IsValue [116, 114, 117, 101]
  | false : IsValue [102, 97, 108, 115, 101]
  | number (l : Bytes) : IsNumber l → IsValue l
  | string (s : Bytes) : IsStringBody s → IsValue (34 :: s ++ [34])
  | emptyArray (w : Bytes) : IsWS w → IsValue (91 :: w ++ [93])
  | array (l : Bytes) : IsElements l → IsValue (91 :: l ++ [93])
  | emptyObject (w : Bytes) : IsWS w → IsValue (123 :: w ++ [125])
  | object (l : Bytes) : IsMembers l → IsValue (123 :: l ++ [125])
/-- The elements of an array: values with white space around them, separated
by commas. -/
inductive IsElements : Bytes → Prop where
  | one (a v b : Bytes) : IsWS a → IsValue v → IsWS b → IsElements (a ++ v ++ b)
  | cons (a v b rest : Bytes) :
      IsWS a → IsValue v → IsWS b → IsElements rest → IsElements (a ++ v ++ b ++ 44 :: rest)
/-- The members of an object: a string, a colon and a value each, with white
space around each part, separated by commas. -/
inductive IsMembers : Bytes → Prop where
  | one (a k b c v d : Bytes) :
      IsWS a → IsStringBody k → IsWS b → IsWS c → IsValue v → IsWS d →
      IsMembers (a ++ 34 :: k ++ 34 :: b ++ 58 :: c ++ v ++ d)
  | cons (a k b c v d rest : Bytes) :
      IsWS a → IsStringBody k → IsWS b → IsWS c → IsValue v → IsWS d → IsMembers rest →
      IsMembers (a ++ 34 :: k ++ 34 :: b ++ 58 :: c ++ v ++ d ++ 44 :: rest)
end

/-- A JSON text: one value with white space around it. -/
def IsJSON (l : Bytes) : Prop :=
  ∃ a v b, IsWS a ∧ IsValue v ∧ IsWS b ∧ l = a ++ v ++ b

/-- A value scanner accepts only a value of the grammar, after white space. -/
def ScansValues (pv : Bytes → Option (JValue × Bytes)) : Prop :=
  ∀ bs v rest, pv bs = some (v, rest) → ∃ a t, IsWS a ∧ IsValue t ∧ bs = a ++ t ++ rest


/-! ## Notions used in the statements -/

/-- The characters of the standard base64 alphabet. -/
def isBase64Alphabet (c : Nat) : Prop :=
  (65 ≤ c ∧ c ≤ 90) ∨ (97 ≤ c ∧ c ≤ 122) ∨ (48 ≤ c ∧ c ≤ 57) ∨ c = 43 ∨ c = 47

instance (c : Nat) : Decidable (isBase64Alphabet c) := by
  unfold isBase64Alphabet; infer_instance

/-- The bytes `url.QueryEscape` can write for a base64 character or `=`:
letters, digits and `%`. -/
def isSignByte (c : Nat) : Prop :=
  (65 ≤ c ∧ c ≤ 90) ∨ (97 ≤ c ∧ c ≤ 122) ∨ (48 ≤ c ∧ c ≤ 57) ∨ c = 37

instance (c : Nat) : Decidable (isSignByte c) := by
  unfold isSignByte; infer_instance

/-- The transport delivers every request and the response body reads as
`body`, under some status code. -/
def delivers (post : Transport) (body : Bytes) : Prop :=
  ∀ q, ∃ st, post q = .ok ⟨st, .ok body⟩

/-- The URL `Send` posts to. -/
def requestURL (now : Int) (r : Robot) : Bytes :=
  if r.secret ≠ [] then r.webHook ++ genSignedURL now r.secret else r.webHook

/-- Whether a JSON value can be stored in a field without a type error:
`null` in either field, an integer literal within the range of `int` in
`Errcode`, a string in `Errmsg`. -/
def wellTyped : Field → JValue → Bool
  | _, .null => true
  | .errcode, .num l => (parseInt64 l).isSome
  | .errmsg, .str _ => true
  | _, _ => false

/-! ## Formatting of integers -/

theorem digitChar_toNat (d : Nat) (h : d < 10) : (Nat.digitChar d).toNat = 48 + d := by
  interval_cases d <;> rfl

theorem natDigits_eq_toDigitsCore (fuel : Nat) :
    ∀ (u : Nat) (acc : List Char),
      natDigits fuel u (acc.map Char.toNat)
        = (Nat.toDigitsCore 10 fuel u acc).map Char.toNat := by
  induction fuel with
  | zero => intro u acc; simp [natDigits, Nat.toDigitsCore]
  | succ n ih =>
      intro u acc
      simp only [natDigits, Nat.toDigitsCore]
      by_cases h : u < 10
      · have h0 : u / 10 = 0 := Nat.div_eq_of_lt h
        simp [h, h0, Nat.mod_eq_of_lt h, digitChar_toNat u h]
      · have h0 : u / 10 ≠ 0 := by omega
        have hd := digitChar_toNat (u % 10) (Nat.mod_lt _ (by decide))
        simp only [h, h0, if_false]
        rw [← ih]
        simp [hd]

theorem formatNat_eq_repr (u : Nat) :
    formatNat u = (Nat.repr u).toList.map Char.toNat := by
  have h := natDigits_eq_toDigitsCore (u + 1) u []
  simpa [formatNat, Nat.repr, Nat.toDigits] using h

theorem natDigits_digits (fuel : Nat) :
    ∀ (u : Nat) (acc : Bytes), (∀ c ∈ acc, 48 ≤ c ∧ c ≤ 57) →
      ∀ c ∈ natDigits fuel u acc, 48 ≤ c ∧ c ≤ 57 := by
  induction fuel with
  | zero => intro u acc h; simpa [natDigits] using h
  | succ n ih =>
      intro u acc h
      simp only [natDigits]
      by_cases hu : u < 10
      · simp only [hu, if_true]
        intro c hc
        rcases List.mem_cons.mp hc with rfl | hc
        · omega
        · exact h c hc
      · simp only [hu, if_false]
        apply ih
        intro c hc
        rcases List.mem_cons.mp hc with rfl | hc
        · omega
        · exact h c hc

theorem formatNat_digits (u : Nat) : ∀ c ∈ formatNat u, 48 ≤ c ∧ c ≤ 57 :=
  natDigits_digits (u + 1) u [] (by simp)

theorem formatNat_ne_nil (u : Nat) : formatNat u ≠ [] := by
  unfold formatNat
  simp only [natDigits]
  by_cases hu : u < 10
  · simp [hu]
  · simp only [hu, if_false]
    cases u with
    | zero => omega
    | succ k =>
        -- the loop keeps what is already written
        have key : ∀ (fuel v : Nat) (acc : Bytes), acc ≠ [] → natDigits fuel v acc ≠ [] := by
          intro fuel
          induction fuel with
          | zero => intro v acc h; simpa [natDigits] using h
          | succ n ih =>
              intro v acc h
              simp only [natDigits]
              by_cases hv : v < 10
              · simp [hv]
              · simp only [hv, if_false]
                exact ih _ _ (by simp)
        exact key _ _ _ (by simp)

theorem formatInt_of_nonneg (n : Int) (h : 0 ≤ n) :
    formatInt (n.tdiv 1000000) = formatNat (n.toNat / 1000000) := by
  obtain ⟨k, rfl⟩ := Int.eq_ofNat_of_zero_le h
  have h1 : (Int.tdiv (k : Int) 1000000) = ((k / 1000000 : Nat) : Int) :=
    (Int.ofNat_tdiv k 1000000).symm
  have h2 : ¬ (((k / 1000000 : Nat) : Int) < 0) := by omega
  rw [h1, formatInt, if_neg h2, Int.natAbs_ofNat, Int.toNat_ofNat]

/-! ## The digest and its encodings -/

theorem sha256_length (msg : Bytes) : (sha256 msg).length = 32 := by
  simp [sha256, wordBytes]

theorem hmacSha256_length (key msg : Bytes) : (hmacSha256 key msg).length = 32 := by
  simp [hmacSha256, sha256_length]

theorem b64Char_alphabet (v : Nat) : isBase64Alphabet (b64Char v) := by
  have hlt : v &&& 0x3F < 64 := Nat.lt_succ_of_le Nat.and_le_right
  have key : ∀ i, i < 64 → isBase64Alphabet (encodeStd.getD i 0) := by decide
  exact key _ hlt

/-- The shape of the encoding of `3 * k + 2` bytes: `4 * k + 3` alphabet
characters and one `=`. -/
theorem base64Std_shape (k : Nat) :
    ∀ l : Bytes, l.length = 3 * k + 2 →
      ∃ pre, base64Std l = pre ++ [61] ∧ pre.length = 4 * k + 3
        ∧ ∀ c ∈ pre, isBase64Alphabet c := by
  induction k with
  | zero =>
      intro l hl
      match l, hl with
      | [b0, b1], _ =>
          refine ⟨[b64Char (((b0 % 256) <<< 16 ||| (b1 % 256) <<< 8) >>> 18),
            b64Char (((b0 % 256) <<< 16 ||| (b1 % 256) <<< 8) >>> 12),
            b64Char (((b0 % 256) <<< 16 ||| (b1 % 256) <<< 8) >>> 6)], by simp [base64Std],
            by simp, ?_⟩
          intro c hc
          simp only [List.mem_cons, List.mem_singleton, List.not_mem_nil, or_false] at hc
          rcases hc with rfl | rfl | rfl <;> exact b64Char_alphabet _
  | succ k ih =>
      intro l hl
      match l, hl with
      | b0 :: b1 :: b2 :: rest, hl =>
          have hr : rest.length = 3 * k + 2 := by simp at hl; omega
          obtain ⟨pre, hpre, hlen, hmem⟩ := ih rest hr
          refine ⟨b64Char (((b0 % 256) <<< 16 ||| (b1 % 256) <<< 8 ||| (b2 % 256)) >>> 18)
            :: b64Char (((b0 % 256) <<< 16 ||| (b1 % 256) <<< 8 ||| (b2 % 256)) >>> 12)
            :: b64Char (((b0 % 256) <<< 16 ||| (b1 % 256) <<< 8 ||| (b2 % 256)) >>> 6)
            :: b64Char ((b0 % 256) <<< 16 ||| (b1 % 256) <<< 8 ||| (b2 % 256)) :: pre,
            by simp [base64Std, hpre], by simp [hlen]; omega, ?_⟩
          intro c hc
          simp only [List.mem_cons] at hc
          rcases hc with rfl | rfl | rfl | rfl | hc
          · exact b64Char_alphabet _
          · exact b64Char_alphabet _
          · exact b64Char_alphabet _
          · exact b64Char_alphabet _
          · exact hmem c hc

theorem escapeByte_of_alphabet (c : Nat) (h : isBase64Alphabet c ∨ c = 61) :
    ∀ x ∈ escapeByte c, isSignByte x := by
  have hc : c < 123 := by
    rcases h with h | h
    · unfold isBase64Alphabet at h; omega
    · omega
  have key : ∀ c, c < 123 → (isBase64Alphabet c ∨ c = 61) → ∀ x ∈ escapeByte c, isSignByte x := by
    decide
  exact key c hc h

theorem queryEscape_append (a b : Bytes) :
    queryEscape (a ++ b) = queryEscape a ++ queryEscape b := by
  simp [queryEscape]

theorem queryEscape_signBytes (l : Bytes) (h : ∀ c ∈ l, isBase64Alphabet c ∨ c = 61) :
    ∀ x ∈ queryEscape l, isSignByte x := by
  intro x hx
  simp only [queryEscape, List.mem_flatMap] at hx
  obtain ⟨c, hc, hx⟩ := hx
  exact escapeByte_of_alphabet c (h c hc) x hx

theorem computeHmacSha256_shape (message secret : Bytes) :
    ∃ pre, computeHmacSha256 message secret = pre ++ [61] ∧ pre.length = 43
      ∧ ∀ c ∈ pre, isBase64Alphabet c := by
  have h := base64Std_shape 10 (hmacSha256 secret message) (hmacSha256_length _ _)
  simpa [computeHmacSha256] using h

theorem isSignByte_not_reserved (c : Nat) (h : isSignByte c) :
    c ≠ 43 ∧ c ≠ 47 ∧ c ≠ 61 ∧ c ≠ 38 ∧ c ≠ 63 ∧ c ≠ 35 ∧ c ≠ 32 := by
  unfold isSignByte at h; omega

theorem signValue_signBytes (message secret : Bytes) :
    ∀ x ∈ queryEscape (computeHmacSha256 message secret), isSignByte x := by
  obtain ⟨pre, hpre, -, hmem⟩ := computeHmacSha256_shape message secret
  rw [hpre]
  apply queryEscape_signBytes
  intro c hc
  rcases List.mem_append.mp hc with hc | hc
  · exact Or.inl (hmem c hc)
  · exact Or.inr (by simpa using hc)

/-! ## The signature suffix -/

/-- C1: for every secret `s` and every clock reading of `n ≥ 0` nanoseconds,
`genSignedURL` returns `"&timestamp=" ++ t ++ "&sign=" ++`
`queryEscape(base64Std(HMAC-SHA256(key = s, msg = t ++ "\n" ++ s)))`, where `t`
is the decimal string of the quotient `n / 1000000`; the result begins with
`&` and not with `?`. -/
theorem genSignedURL_spec (s : Bytes) (n : Int) (h : 0 ≤ n) :
    genSignedURL n s
        = lit "&timestamp=" ++ (Nat.repr (n.toNat / 1000000)).toList.map Char.toNat
            ++ lit "&sign="
            ++ queryEscape (base64Std (hmacSha256 s
                ((Nat.repr (n.toNat / 1000000)).toList.map Char.toNat ++ lit "\n" ++ s)))
      ∧ (genSignedURL n s).head? = some 38
      ∧ (genSignedURL n s).head? ≠ some 63 := by
  have ht : formatInt (n.tdiv 1000000)
      = (Nat.repr (n.toNat / 1000000)).toList.map Char.toNat := by
    rw [formatInt_of_nonneg n h, formatNat_eq_repr]
  have hhead : (genSignedURL n s).head? = some 38 := by
    simp only [genSignedURL, List.append_assoc]
    rfl
  refine ⟨?_, hhead, ?_⟩
  · simp only [genSignedURL, computeHmacSha256, ht]
  · rw [hhead]; decide

theorem genSignedURL_spec_witness :
    (0 : Int) ≤ 1700000000123456789 ∧
      genSignedURL 1700000000123456789 (lit "SECabc")
        = lit "&timestamp=" ++ (Nat.repr ((1700000000123456789 : Int).toNat / 1000000)).toList.map Char.toNat
            ++ lit "&sign="
            ++ queryEscape (base64Std (hmacSha256 (lit "SECabc")
                ((Nat.repr ((1700000000123456789 : Int).toNat / 1000000)).toList.map Char.toNat
                  ++ lit "\n" ++ lit "SECabc"))) :=
  ⟨by decide, (genSignedURL_spec (lit "SECabc") 1700000000123456789 (by decide)).1⟩

/-- The suffix for the secret `SECabc` at 1700000000123456789 ns, computed in
full. -/
theorem genSignedURL_example :
    genSignedURL 1700000000123456789 (lit "SECabc")
      = lit "&timestamp=1700000000123&sign=IqXBU%2FaLfwMA3S%2FtDcfRmHx5vWHw9Y1aOgFLBr1Ti9w%3D" := by
  decide!

/-- C10: for every secret and every non-negative clock reading the suffix of
`genSignedURL` is a well-formed pair of query parameters: two `&` and two `=`
in all, a timestamp of decimal digits only, and a sign value free of `+`, `/`,
`=`, `&`, `?`, `#` and space, because the digest has 32 bytes, its base64 form
is 43 alphabet characters and one `=`, and query-escaping writes `%2B`, `%2F`
and `%3D` for `+`, `/` and `=`; the sign value ends in `%3D`. -/
theorem genSignedURL_wellFormed (s : Bytes) (n : Int) (h : 0 ≤ n) :
    genSignedURL n s
        = lit "&timestamp=" ++ formatInt (n.tdiv 1000000) ++ lit "&sign="
            ++ queryEscape (computeHmacSha256 (formatInt (n.tdiv 1000000) ++ lit "\n" ++ s) s)
      ∧ (genSignedURL n s).count 38 = 2
      ∧ (genSignedURL n s).count 61 = 2
      ∧ formatInt (n.tdiv 1000000) ≠ []
      ∧ (∀ c ∈ formatInt (n.tdiv 1000000), 48 ≤ c ∧ c ≤ 57)
      ∧ (∀ c ∈ queryEscape (computeHmacSha256 (formatInt (n.tdiv 1000000) ++ lit "\n" ++ s) s),
          c ≠ 43 ∧ c ≠ 47 ∧ c ≠ 61 ∧ c ≠ 38 ∧ c ≠ 63 ∧ c ≠ 35 ∧ c ≠ 32)
      ∧ (hmacSha256 s (formatInt (n.tdiv 1000000) ++ lit "\n" ++ s)).length = 32
      ∧ (computeHmacSha256 (formatInt (n.tdiv 1000000) ++ lit "\n" ++ s) s).length = 44
      ∧ (∃ pre, computeHmacSha256 (formatInt (n.tdiv 1000000) ++ lit "\n" ++ s) s = pre ++ lit "="
          ∧ ∀ c ∈ pre, isBase64Alphabet c)
      ∧ escapeByte 43 = lit "%2B" ∧ escapeByte 47 = lit "%2F" ∧ escapeByte 61 = lit "%3D"
      ∧ lit "%3D" <:+ queryEscape
          (computeHmacSha256 (formatInt (n.tdiv 1000000) ++ lit "\n" ++ s) s) := by
  have hdig : ∀ c ∈ formatInt (n.tdiv 1000000), 48 ≤ c ∧ c ≤ 57 := by
    rw [formatInt_of_nonneg n h]; exact formatNat_digits _
  have hsig := signValue_signBytes (formatInt (n.tdiv 1000000) ++ lit "\n" ++ s) s
  obtain ⟨pre, hpre, hlen, hmem⟩ :=
    computeHmacSha256_shape (formatInt (n.tdiv 1000000) ++ lit "\n" ++ s) s
  have hE : escapeByte 61 = lit "%3D" := by decide
  have hc38 : ∀ l : Bytes, (∀ c ∈ l, c ≠ 38) → l.count 38 = 0 := by
    intro l hl; exact List.count_eq_zero.mpr fun hm => hl 38 hm rfl
  have hc61 : ∀ l : Bytes, (∀ c ∈ l, c ≠ 61) → l.count 61 = 0 := by
    intro l hl; exact List.count_eq_zero.mpr fun hm => hl 61 hm rfl
  have hA38 : (lit "&timestamp=").count 38 = 1 := by decide
  have hA61 : (lit "&timestamp=").count 61 = 1 := by decide
  have hB38 : (lit "&sign=").count 38 = 1 := by decide
  have hB61 : (lit "&sign=").count 61 = 1 := by decide
  refine ⟨rfl, ?_, ?_, ?_, hdig, ?_, hmacSha256_length _ _, ?_, ⟨pre, ?_, hmem⟩,
    by decide, by decide, hE, ?_⟩
  · simp only [genSignedURL, List.count_append, hA38, hB38]
    rw [hc38 _ (fun c hc => by have := hdig c hc; omega),
      hc38 _ (fun c hc => (isSignByte_not_reserved c (hsig c hc)).2.2.2.1)]
  · simp only [genSignedURL, List.count_append, hA61, hB61]
    rw [hc61 _ (fun c hc => by have := hdig c hc; omega),
      hc61 _ (fun c hc => (isSignByte_not_reserved c (hsig c hc)).2.2.1)]
  · rw [formatInt_of_nonneg n h]; exact formatNat_ne_nil _
  · intro c hc; exact isSignByte_not_reserved c (hsig c hc)
  · rw [hpre]; simp [hlen]
  · rw [hpre]; rfl
  · rw [hpre, queryEscape_append]
    refine ⟨queryEscape pre, ?_⟩
    have : queryEscape [61] = lit "%3D" := by decide
    rw [this]

theorem genSignedURL_wellFormed_witness :
    (0 : Int) ≤ 1700000000123456789 ∧
      (genSignedURL 1700000000123456789 (lit "SECabc")).count 38 = 2 ∧
      (genSignedURL 1700000000123456789 (lit "SECabc")).count 61 = 2 :=
  ⟨by decide,
    (genSignedURL_wellFormed (lit "SECabc") 1700000000123456789 (by decide)).2.1,
    (genSignedURL_wellFormed (lit "SECabc") 1700000000123456789 (by decide)).2.2.1⟩

/-! ## The request of `Send` -/

theorem Send_robot (now : Int) (post : Transport) (r : Robot) (msg : GoVal) :
    (r.Send now post msg).robot = r := by
  unfold Robot.Send
  split
  · rfl
  · dsimp only
    split
    · rfl
    · split
      · rfl
      · split
        · rfl
        · split <;> rfl

theorem Send_posted_of_error (now : Int) (post : Transport) (r : Robot) (msg : GoVal)
    (e : GoError) (hm : Marshal msg = .error e) :
    (r.Send now post msg).posted = [] ∧ (r.Send now post msg).err = some e := by
  unfold Robot.Send
  rw [hm]
  exact ⟨rfl, rfl⟩

theorem Send_posted (now : Int) (post : Transport) (r : Robot) (msg : GoVal) (m : Bytes)
    (hm : Marshal msg = .ok m) :
    (r.Send now post msg).posted = [⟨requestURL now r, lit "application/json", m⟩] := by
  unfold Robot.Send requestURL
  rw [hm]
  dsimp only
  split
  · rfl
  · split
    · rfl
    · split
      · rfl
      · split <;> rfl

theorem Send_err (now : Int) (post : Transport) (r : Robot) (msg : GoVal) (m body : Bytes)
    (hm : Marshal msg = .ok m) (hp : delivers post body) :
    (r.Send now post msg).err
      = match Unmarshal body with
        | .error e => some e
        | .ok dr =>
            if dr.Errcode ≠ 0 then some (.errorf (lit "dingrobot send failed: " ++ dr.Errmsg))
            else none := by
  unfold Robot.Send
  rw [hm]
  dsimp only
  obtain ⟨st, hst⟩ := hp ⟨if r.secret ≠ [] then r.webHook ++ genSignedURL now r.secret
    else r.webHook, lit "application/json", m⟩
  rw [hst]
  dsimp only
  cases hU : Unmarshal body with
  | error e => rfl
  | ok dr =>
      dsimp only
      split <;> rfl

/-- C2: for every endpoint URL `u` and message that serializes, `Send` on a
client fresh from `NewRobot(u)`, or on any client with endpoint `u` after
`SetSecret("")`, posts to exactly `u`; and after `SetSecret(s)` with `s`
non-empty it posts to exactly `u ++ genSignedURL(s)`. -/
theorem Send_url (u : Bytes) (msg : GoVal) (m : Bytes) (now : Int) (post : Transport)
    (hm : Marshal msg = .ok m) :
    ((NewRobot u).Send now post msg).posted.map Request.url = [u]
      ∧ (∀ s0, (((Robot.mk u s0).SetSecret []).Send now post msg).posted.map Request.url
          = [u])
      ∧ (∀ s0 s, s ≠ [] →
          (((Robot.mk u s0).SetSecret s).Send now post msg).posted.map Request.url
            = [u ++ genSignedURL now s]) := by
  refine ⟨?_, ?_, ?_⟩
  · rw [Send_posted now post _ msg m hm]
    simp [requestURL, NewRobot]
  · intro s0
    rw [Send_posted now post _ msg m hm]
    simp [requestURL, Robot.SetSecret]
  · intro s0 s hs
    rw [Send_posted now post _ msg m hm]
    simp [requestURL, Robot.SetSecret, hs]

theorem Send_url_witness :
    Marshal (.str (lit "hi")) = .ok (lit "\"hi\"")
      ∧ ((NewRobot (lit "https://example.org/send?access_token=t")).Send 0
          (fun _ => .error (.transport 0)) (.str (lit "hi"))).posted.map Request.url
        = [lit "https://example.org/send?access_token=t"] :=
  ⟨rfl,
    (Send_url (lit "https://example.org/send?access_token=t") (.str (lit "hi"))
      (lit "\"hi\"") 0 (fun _ => .error (.transport 0)) rfl).1⟩

/-- C9: for every client, message and fixed clock value, two calls of `Send`
in sequence hand the same requests (URL and body alike) to the transport,
whatever the transport answers; each call leaves the endpoint URL and the
secret as they were, and the URL of the second call is the endpoint URL with
at most one signature suffix. -/
theorem Send_twice (now : Int) (post1 post2 : Transport) (r : Robot) (msg : GoVal) :
    (r.Send now post1 msg).robot = r
      ∧ ((r.Send now post1 msg).robot.Send now post2 msg).robot = r
      ∧ ((r.Send now post1 msg).robot.Send now post2 msg).posted
          = (r.Send now post1 msg).posted
      ∧ (∀ q ∈ ((r.Send now post1 msg).robot.Send now post2 msg).posted,
          q.url = requestURL now r) := by
  have h1 := Send_robot now post1 r msg
  refine ⟨h1, ?_, ?_, ?_⟩
  · rw [h1]; exact Send_robot now post2 r msg
  · rw [h1]
    cases hm : Marshal msg with
    | error e =>
        rw [(Send_posted_of_error now post1 r msg e hm).1,
          (Send_posted_of_error now post2 r msg e hm).1]
    | ok m => rw [Send_posted now post1 r msg m hm, Send_posted now post2 r msg m hm]
  · rw [h1]
    intro q hq
    cases hm : Marshal msg with
    | error e =>
        rw [(Send_posted_of_error now post2 r msg e hm).1] at hq
        simp at hq
    | ok m =>
        rw [Send_posted now post2 r msg m hm] at hq
        simp only [List.mem_singleton] at hq
        rw [hq]

/-! ## The bodies of the two message variants -/

theorem Marshal_elems_str (xs : List Bytes) :
    Marshal.elems (xs.map GoVal.str) = .ok (xs.map jsonString) := by
  induction xs with
  | nil => rfl
  | cons x xs ih =>
      simp [Marshal.elems, Marshal, ih, bind, Except.bind, pure, Except.pure]

/-- A string of bytes from `htmlSafeSet` is written between quotes as it is. -/
theorem appendString_safe (s : Bytes) (h : ∀ c ∈ s, htmlSafe c = true) :
    ∀ fuel, s.length ≤ fuel → appendString fuel s = s := by
  induction s with
  | nil => intro fuel _; cases fuel <;> rfl
  | cons c s ih =>
      intro fuel hf
      cases fuel with
      | zero => simp at hf
      | succ n =>
          have hc := h c (List.mem_cons_self _ _)
          have hlt : c < 0x80 := by
            simp only [htmlSafe, decide_eq_true_eq] at hc; omega
          simp only [appendString, hlt, if_true, hc]
          rw [ih (fun x hx => h x (List.mem_cons_of_mem _ hx)) n (by simpa using hf)]
          rfl

theorem jsonString_safe (s : Bytes) (h : ∀ c ∈ s, htmlSafe c = true) :
    jsonString s = [34] ++ s ++ [34] := by
  rw [jsonString, appendString_safe s h s.length (Nat.le_refl _)]

/-- C8: for every title `t` and text `x`, `SendMarkdown(t, x)` is the call of
`Send` on the markdown message, whose body is
`{"msgtype":"markdown","markdown":{"title":T,"text":X}}` with `T` and `X` the
JSON string literals of `t` and `x`; that body is what is posted, and for
`SendMarkdown("T", "**bold**")` it is the body given in the specification,
which reads back as an object with these keys only, in this order. -/
theorem SendMarkdown_body (now : Int) (post : Transport) (r : Robot) (t x : Bytes) :
    r.SendMarkdown now post t x
        = r.Send now post (.ptr (markdownMessage msgTypeMarkdown (markdownParams t x)))
      ∧ Marshal (.ptr (markdownMessage msgTypeMarkdown (markdownParams t x)))
        = .ok (lit "\x7b\"msgtype\":\"markdown\",\"markdown\":\x7b\"title\":" ++ jsonString t
            ++ lit ",\"text\":" ++ jsonString x ++ lit "\x7d\x7d")
      ∧ (r.SendMarkdown now post t x).posted.map Request.body
        = [lit "\x7b\"msgtype\":\"markdown\",\"markdown\":\x7b\"title\":" ++ jsonString t
            ++ lit ",\"text\":" ++ jsonString x ++ lit "\x7d\x7d"]
      ∧ (r.SendMarkdown now post (lit "T") (lit "**bold**")).posted.map Request.body
        = [lit "\x7b\"msgtype\":\"markdown\",\"markdown\":\x7b\"title\":\"T\",\"text\":\"**bold**\"\x7d\x7d"]
      ∧ parseJSON (lit "\x7b\"msgtype\":\"markdown\",\"markdown\":\x7b\"title\":\"T\",\"text\":\"**bold**\"\x7d\x7d")
        = some (.obj [(lit "msgtype", .str (lit "markdown")),
            (lit "markdown", .obj [(lit "title", .str (lit "T")),
              (lit "text", .str (lit "**bold**"))])]) := by
  have hM : ∀ t x : Bytes, Marshal (.ptr (markdownMessage msgTypeMarkdown (markdownParams t x)))
      = .ok (lit "\x7b\"msgtype\":\"markdown\",\"markdown\":\x7b\"title\":" ++ jsonString t
          ++ lit ",\"text\":" ++ jsonString x ++ lit "\x7d\x7d") := by
    intro t x
    simp [Marshal, Marshal.members, markdownMessage, markdownParams, msgTypeMarkdown, commaJoin,
      jsonString, lit, encodeRune, appendString, htmlSafe, bind, Except.bind, pure, Except.pure]
  refine ⟨rfl, hM t x, ?_, ?_, by rfl⟩
  · rw [Robot.SendMarkdown, Send_posted now post r _ _ (hM t x)]
    rfl
  · rw [Robot.SendMarkdown, Send_posted now post r _ _ (hM _ _)]
    simp only [List.map]
    decide

/-- C7 (as stated, refuted): with the absent (nil) list of mobiles the body
has `null` under `atMobiles`, not a JSON array. -/
theorem SendText_nil_counterexample :
    ((NewRobot (lit "u")).SendText 0 (fun _ => .error (.transport 0)) (lit "hello") none
        false).posted.map Request.body
      = [lit "\x7b\"msgtype\":\"text\",\"text\":\x7b\"content\":\"hello\"\x7d,\"at\":\x7b\"atMobiles\":null,\"isAtAll\":false\x7d\x7d"]
    ∧ ((NewRobot (lit "u")).SendText 0 (fun _ => .error (.transport 0)) (lit "hello") none
        false).posted.map Request.body
      ≠ [lit "\x7b\"msgtype\":\"text\",\"text\":\x7b\"content\":\"hello\"\x7d,\"at\":\x7b\"atMobiles\":[],\"isAtAll\":false\x7d\x7d"] := by
  decide

/-- C7 (amended): for every content `c`, boolean `b` and list of mobiles,
`SendText` is the call of `Send` on the text message; for a non-nil list `ms`
(the empty one included) the body is
`{"msgtype":"text","text":{"content":C},"at":{"atMobiles":[M...],"isAtAll":b}}`
with the elements of `ms` in order, and for the nil list it is the same with
`null` under `atMobiles`; for `SendText("hello", ["13800000000"], false)` it is
the body given in the specification, which reads back as an object with these
keys only. -/
theorem SendText_body (now : Int) (post : Transport) (r : Robot) (c : Bytes) (b : Bool) :
    (∀ ms, r.SendText now post c ms b
        = r.Send now post (.ptr (textMessage msgTypeText (textParams c) (atParams ms b))))
      ∧ (∀ ms : List Bytes, (r.SendText now post c (some ms) b).posted.map Request.body
        = [lit "\x7b\"msgtype\":\"text\",\"text\":\x7b\"content\":" ++ jsonString c
            ++ lit "\x7d,\"at\":\x7b\"atMobiles\":[" ++ commaJoin (ms.map jsonString)
            ++ lit "],\"isAtAll\":" ++ (if b then lit "true" else lit "false")
            ++ lit "\x7d\x7d"])
      ∧ (r.SendText now post c none b).posted.map Request.body
        = [lit "\x7b\"msgtype\":\"text\",\"text\":\x7b\"content\":" ++ jsonString c
            ++ lit "\x7d,\"at\":\x7b\"atMobiles\":null,\"isAtAll\":"
            ++ (if b then lit "true" else lit "false") ++ lit "\x7d\x7d"]
      ∧ (r.SendText now post (lit "hello") (some [lit "13800000000"]) false).posted.map
          Request.body
        = [lit "\x7b\"msgtype\":\"text\",\"text\":\x7b\"content\":\"hello\"\x7d,\"at\":\x7b\"atMobiles\":[\"13800000000\"],\"isAtAll\":false\x7d\x7d"]
      ∧ parseJSON (lit "\x7b\"msgtype\":\"text\",\"text\":\x7b\"content\":\"hello\"\x7d,\"at\":\x7b\"atMobiles\":[\"13800000000\"],\"isAtAll\":false\x7d\x7d")
        = some (.obj [(lit "msgtype", .str (lit "text")),
            (lit "text", .obj [(lit "content", .str (lit "hello"))]),
            (lit "at", .obj [(lit "atMobiles", .arr [.str (lit "13800000000")]),
              (lit "isAtAll", .bool false)])]) := by
  have hS : ∀ (c : Bytes) (b : Bool) (ms : List Bytes),
      Marshal (.ptr (textMessage msgTypeText (textParams c) (atParams (some ms) b)))
        = .ok (lit "\x7b\"msgtype\":\"text\",\"text\":\x7b\"content\":" ++ jsonString c
            ++ lit "\x7d,\"at\":\x7b\"atMobiles\":[" ++ commaJoin (ms.map jsonString)
            ++ lit "],\"isAtAll\":" ++ (if b then lit "true" else lit "false")
            ++ lit "\x7d\x7d") := by
    intro c b ms
    cases b <;>
    simp [Marshal, Marshal.members, Marshal_elems_str, textMessage, textParams, atParams,
      stringSlice, msgTypeText, commaJoin, jsonString, lit, encodeRune, appendString, htmlSafe,
      bind, Except.bind, pure, Except.pure]
  have hN : Marshal (.ptr (textMessage msgTypeText (textParams c) (atParams none b)))
        = .ok (lit "\x7b\"msgtype\":\"text\",\"text\":\x7b\"content\":" ++ jsonString c
            ++ lit "\x7d,\"at\":\x7b\"atMobiles\":null,\"isAtAll\":"
            ++ (if b then lit "true" else lit "false") ++ lit "\x7d\x7d") := by
    cases b <;>
    simp [Marshal, Marshal.members, textMessage, textParams, atParams,
      stringSlice, msgTypeText, commaJoin, jsonString, lit, encodeRune, appendString, htmlSafe,
      bind, Except.bind, pure, Except.pure]
  refine ⟨fun _ => rfl, ?_, ?_, ?_, by rfl⟩
  · intro ms
    rw [Robot.SendText, Send_posted now post r _ _ (hS c b ms)]
    rfl
  · rw [Robot.SendText, Send_posted now post r _ _ hN]
    rfl
  · rw [Robot.SendText, Send_posted now post r _ _ (hS _ _ _)]
    simp only [List.map]
    decide

/-! ## Reading back an encoded string -/

theorem hex_roundtrip :
    ∀ b, b < 128 →
      hexVal (hex.getD (b >>> 4) 0) = some (b >>> 4)
        ∧ hexVal (hex.getD (b &&& 0xF) 0) = some (b &&& 0xF)
        ∧ (b >>> 4) * 16 + (b &&& 0xF) = b := by
  decide

theorem scanString_escapeAscii (b : Nat) (hb : b < 0x80) (f : Nat) (tail acc : Bytes) :
    scanString (f + 1) ((if htmlSafe b then [b] else escapeAscii b) ++ tail) acc
      = scanString f tail (acc ++ [b]) := by
  by_cases hs : htmlSafe b = true
  · rw [if_pos hs]
    simp only [htmlSafe, decide_eq_true_eq] at hs
    have h34 : ¬ b = 34 := by omega
    have h92 : ¬ b = 92 := by omega
    have h20 : ¬ b < 0x20 := by omega
    show scanString (f + 1) (b :: tail) acc = _
    conv_lhs => unfold scanString
    rw [if_neg h34, if_neg h92, if_neg h20, if_pos hb]
  · rw [if_neg hs]
    unfold escapeAscii
    by_cases c1 : b = 92 ∨ b = 34
    · rw [if_pos c1]
      show scanString (f + 1) (92 :: b :: tail) acc = _
      conv_lhs => unfold scanString
      have e1 : b = 34 ∨ b = 92 ∨ b = 47 := by omega
      simp only [show ¬ (92 : Nat) = 34 by decide, if_false, if_true, if_pos e1]
    rw [if_neg c1]
    have special : ∀ (e v : Nat), b = v →
        (e = 98 ∧ v = 8) ∨ (e = 102 ∧ v = 12) ∨ (e = 110 ∧ v = 10) ∨ (e = 114 ∧ v = 13)
          ∨ (e = 116 ∧ v = 9) →
        scanString (f + 1) ([92, e] ++ tail) acc = scanString f tail (acc ++ [b]) := by
      intro e v hv he
      show scanString (f + 1) (92 :: e :: tail) acc = _
      conv_lhs => unfold scanString
      simp only [show ¬ (92 : Nat) = 34 by decide, if_false, if_true]
      rcases he with ⟨rfl, rfl⟩ | ⟨rfl, rfl⟩ | ⟨rfl, rfl⟩ | ⟨rfl, rfl⟩ | ⟨rfl, rfl⟩ <;>
        simp [hv]
    by_cases c2 : b = 8
    · rw [if_pos c2]; exact special 98 8 c2 (by omega)
    rw [if_neg c2]
    by_cases c3 : b = 12
    · rw [if_pos c3]; exact special 102 12 c3 (by omega)
    rw [if_neg c3]
    by_cases c4 : b = 10
    · rw [if_pos c4]; exact special 110 10 c4 (by omega)
    rw [if_neg c4]
    by_cases c5 : b = 13
    · rw [if_pos c5]; exact special 114 13 c5 (by omega)
    rw [if_neg c5]
    by_cases c6 : b = 9
    · rw [if_pos c6]; exact special 116 9 c6 (by omega)
    rw [if_neg c6]
    obtain ⟨k1, k2, k3⟩ := hex_roundtrip b hb
    have hg : getu4 (92 :: 117 :: 48 :: 48 :: hex.getD (b >>> 4) 0 :: hex.getD (b &&& 0xF) 0
        :: tail) = some b := by
      have h48 : hexVal 48 = some 0 := by decide
      simp only [getu4, h48, k1, k2, Option.bind_eq_bind, Option.some_bind, Option.pure_def,
        Option.some.injEq]
      omega
    show scanString (f + 1) (92 :: 117 :: 48 :: 48 :: hex.getD (b >>> 4) 0
      :: hex.getD (b &&& 0xF) 0 :: tail) acc = _
    conv_lhs => unfold scanString
    have hsur : ¬ (0xD800 ≤ b ∧ b < 0xE000) := by omega
    have henc : encodeRune b = [b] := by simp [encodeRune, hb]
    simp only [show ¬ (92 : Nat) = 34 by decide, if_false, if_true, hg,
      show ¬ ((117 : Nat) = 34 ∨ (117 : Nat) = 92 ∨ (117 : Nat) = 47) by decide,
      show ¬ (117 : Nat) = 98 by decide, show ¬ (117 : Nat) = 102 by decide,
      show ¬ (117 : Nat) = 110 by decide, show ¬ (117 : Nat) = 114 by decide,
      show ¬ (117 : Nat) = 116 by decide, if_neg hsur, henc]
    rfl

theorem appendString_length (t : Bytes) (ht : ∀ c ∈ t, c < 0x80) :
    ∀ n, t.length ≤ n → t.length ≤ (appendString n t).length := by
  induction t with
  | nil => intro n _; simp
  | cons b t ih =>
      intro n hn
      cases n with
      | zero => simp at hn
      | succ n =>
          have hb := ht b (List.mem_cons_self _ _)
          have := ih (fun c hc => ht c (List.mem_cons_of_mem _ hc)) n (by simpa using hn)
          simp only [appendString, hb, if_true, List.length_append, List.length_cons]
          have h1 : 1 ≤ (if htmlSafe b = true then [b] else escapeAscii b).length := by
            split
            · simp
            · unfold escapeAscii; split_ifs <;> simp
          omega

theorem scanString_appendString (t : Bytes) (ht : ∀ c ∈ t, c < 0x80) :
    ∀ (fuel n : Nat) (acc r : Bytes), t.length ≤ n → t.length < fuel →
      scanString fuel (appendString n t ++ 34 :: r) acc = some (acc ++ t, r) := by
  induction t with
  | nil =>
      intro fuel n acc r _ hf
      cases fuel with
      | zero => simp at hf
      | succ f =>
          have : appendString n [] = [] := by cases n <;> rfl
          rw [this]
          show scanString (f + 1) (34 :: r) acc = _
          conv_lhs => unfold scanString
          simp
  | cons b t ih =>
      intro fuel n acc r hn hf
      cases n with
      | zero => simp at hn
      | succ n =>
          cases fuel with
          | zero => simp at hf
          | succ f =>
              have hb := ht b (List.mem_cons_self _ _)
              have e : appendString (n + 1) (b :: t)
                  = (if htmlSafe b then [b] else escapeAscii b) ++ appendString n t := by
                simp only [appendString, hb, if_true]
              rw [e, List.append_assoc, scanString_escapeAscii b hb,
                ih (fun c hc => ht c (List.mem_cons_of_mem _ hc)) f n _ r
                  (by simpa using hn) (by simpa using hf)]
              simp

/-- The decoder reads the JSON string literal written for an ASCII string
back as that string. -/
theorem parseJSON_jsonString (t : Bytes) (ht : ∀ c ∈ t, c < 0x80) :
    parseJSON (jsonString t) = some (.str t) := by
  have hlen := appendString_length t ht t.length (Nat.le_refl _)
  have hs : scanString (appendString t.length t ++ [34]).length
      (appendString t.length t ++ [34]) [] = some (t, []) := by
    have := scanString_appendString t ht (appendString t.length t ++ [34]).length t.length []
      [] (Nat.le_refl _) (by simp; omega)
    simpa using this
  unfold parseJSON jsonString
  simp only [List.singleton_append, List.length_cons]
  unfold scanValue
  have hsk : skipSpace (34 :: appendString t.length t ++ [34])
      = 34 :: (appendString t.length t ++ [34]) := by
    simp [skipSpace, isSpace]
  rw [hsk]
  simp only [List.length_append, List.length_singleton] at hs
  simp [hs, skipSpace]

/-! ## Decoding of the response -/

theorem saveError_ne_none (d : decodeState) (e : GoError) :
    (d.saveError e).savedError ≠ none := by
  unfold decodeState.saveError
  cases h : d.savedError with
  | none => simp
  | some e0 => simp [h]

theorem storeField_wellTyped (d : decodeState) (f : Field) (v : JValue)
    (h : wellTyped f v = true) : (storeField d f v).savedError = d.savedError := by
  cases f <;> cases v <;> simp_all [wellTyped, storeField]
  case errcode.num l =>
    cases hp : parseInt64 l with
    | none => simp [hp] at h
    | some n => rfl

theorem storeField_illTyped (d : decodeState) (f : Field) (v : JValue)
    (h : wellTyped f v = false) : (storeField d f v).savedError ≠ none := by
  cases f <;> cases v <;> simp_all [wellTyped, storeField] <;>
    exact saveError_ne_none _ _

theorem storeField_keeps_error (d : decodeState) (f : Field) (v : JValue)
    (h : d.savedError ≠ none) : (storeField d f v).savedError ≠ none := by
  by_cases hw : wellTyped f v = true
  · rw [storeField_wellTyped d f v hw]; exact h
  · exact storeField_illTyped d f v (by simpa using hw)

theorem storeMembers_keeps_error (ms : List (Bytes × JValue)) :
    ∀ d : decodeState, d.savedError ≠ none → (storeMembers d ms).savedError ≠ none := by
  induction ms with
  | nil => intro d h; exact h
  | cons kv ms ih =>
      intro d h
      obtain ⟨k, v⟩ := kv
      simp only [storeMembers]
      cases hf : fieldOf k with
      | none => exact ih d h
      | some f => exact ih _ (storeField_keeps_error d f v h)

theorem storeMembers_wellTyped (ms : List (Bytes × JValue)) :
    ∀ d : decodeState,
      (∀ k v f, (k, v) ∈ ms → fieldOf k = some f → wellTyped f v = true) →
      (storeMembers d ms).savedError = d.savedError := by
  induction ms with
  | nil => intro d _; rfl
  | cons kv ms ih =>
      intro d h
      obtain ⟨k, v⟩ := kv
      simp only [storeMembers]
      have hrest : ∀ k v f, (k, v) ∈ ms → fieldOf k = some f → wellTyped f v = true :=
        fun k v f hm hf => h k v f (List.mem_cons_of_mem _ hm) hf
      cases hf : fieldOf k with
      | none => exact ih d hrest
      | some f =>
          dsimp only
          rw [ih _ hrest]
          exact storeField_wellTyped d f v (h k v f (List.mem_cons_self _ _) hf)

theorem storeMembers_illTyped (ms : List (Bytes × JValue)) :
    ∀ d : decodeState,
      (∃ k v f, (k, v) ∈ ms ∧ fieldOf k = some f ∧ wellTyped f v = false) →
      (storeMembers d ms).savedError ≠ none := by
  induction ms with
  | nil => intro d ⟨k, v, f, hm, _⟩; simp at hm
  | cons kv ms ih =>
      intro d ⟨k, v, f, hm, hf, hw⟩
      obtain ⟨k0, v0⟩ := kv
      simp only [storeMembers]
      rcases List.mem_cons.mp hm with heq | hm
      · obtain ⟨rfl, rfl⟩ := Prod.mk.inj heq
        rw [hf]
        exact storeMembers_keeps_error ms _ (storeField_illTyped d f v hw)
      · cases hf0 : fieldOf k0 with
        | none => exact ih d ⟨k, v, f, hm, hf, hw⟩
        | some f0 => exact ih _ ⟨k, v, f, hm, hf, hw⟩

theorem saveError_dr (d : decodeState) (e : GoError) : (d.saveError e).dr = d.dr := by
  unfold decodeState.saveError
  cases d.savedError <;> rfl

theorem storeField_errmsg_Errcode (d : decodeState) (v : JValue) :
    (storeField d .errmsg v).dr.Errcode = d.dr.Errcode := by
  cases v <;> simp [storeField, saveError_dr]

theorem storeField_errcode_Errmsg (d : decodeState) (v : JValue) :
    (storeField d .errcode v).dr.Errmsg = d.dr.Errmsg := by
  cases v <;> simp [storeField, saveError_dr]
  case num l =>
    cases parseInt64 l <;> simp [saveError_dr]

theorem storeMembers_Errcode (c : Int) (ms : List (Bytes × JValue)) :
    ∀ d : decodeState,
      (∀ k v, (k, v) ∈ ms → fieldOf k = some .errcode →
        ∃ l, v = .num l ∧ parseInt64 l = some c) →
      (d.dr.Errcode = c ∨ ∃ k v, (k, v) ∈ ms ∧ fieldOf k = some .errcode) →
      (storeMembers d ms).dr.Errcode = c := by
  induction ms with
  | nil =>
      intro d _ h
      rcases h with h | ⟨k, v, hm, _⟩
      · exact h
      · simp at hm
  | cons kv ms ih =>
      intro d hall h
      obtain ⟨k0, v0⟩ := kv
      have hrest : ∀ k v, (k, v) ∈ ms → fieldOf k = some .errcode →
          ∃ l, v = .num l ∧ parseInt64 l = some c :=
        fun k v hm hf => hall k v (List.mem_cons_of_mem _ hm) hf
      simp only [storeMembers]
      cases hf0 : fieldOf k0 with
      | none =>
          dsimp only
          apply ih d hrest
          rcases h with h | ⟨k, v, hm, hf⟩
          · exact Or.inl h
          · rcases List.mem_cons.mp hm with heq | hm
            · obtain ⟨rfl, rfl⟩ := Prod.mk.inj heq
              rw [hf0] at hf; cases hf
            · exact Or.inr ⟨k, v, hm, hf⟩
      | some f =>
          dsimp only
          cases f with
          | errcode =>
              obtain ⟨l, rfl, hl⟩ := hall k0 v0 (List.mem_cons_self _ _) hf0
              apply ih _ hrest
              left
              simp [storeField, hl]
          | errmsg =>
              apply ih _ hrest
              rw [storeField_errmsg_Errcode]
              rcases h with h | ⟨k, v, hm, hf⟩
              · exact Or.inl h
              · rcases List.mem_cons.mp hm with heq | hm
                · obtain ⟨rfl, rfl⟩ := Prod.mk.inj heq
                  rw [hf0] at hf; cases hf
                · exact Or.inr ⟨k, v, hm, hf⟩

theorem storeMembers_Errmsg (e : Bytes) (ms : List (Bytes × JValue)) :
    ∀ d : decodeState,
      (∀ k v, (k, v) ∈ ms → fieldOf k = some .errmsg → v = .str e) →
      (d.dr.Errmsg = e ∨ ∃ k v, (k, v) ∈ ms ∧ fieldOf k = some .errmsg) →
      (storeMembers d ms).dr.Errmsg = e := by
  induction ms with
  | nil =>
      intro d _ h
      rcases h with h | ⟨k, v, hm, _⟩
      · exact h
      · simp at hm
  | cons kv ms ih =>
      intro d hall h
      obtain ⟨k0, v0⟩ := kv
      have hrest : ∀ k v, (k, v) ∈ ms → fieldOf k = some .errmsg → v = .str e :=
        fun k v hm hf => hall k v (List.mem_cons_of_mem _ hm) hf
      simp only [storeMembers]
      cases hf0 : fieldOf k0 with
      | none =>
          dsimp only
          apply ih d hrest
          rcases h with h | ⟨k, v, hm, hf⟩
          · exact Or.inl h
          · rcases List.mem_cons.mp hm with heq | hm
            · obtain ⟨rfl, rfl⟩ := Prod.mk.inj heq
              rw [hf0] at hf; cases hf
            · exact Or.inr ⟨k, v, hm, hf⟩
      | some f =>
          dsimp only
          cases f with
          | errmsg =>
              have hv := hall k0 v0 (List.mem_cons_self _ _) hf0
              subst hv
              apply ih _ hrest
              left
              simp [storeField]
          | errcode =>
              apply ih _ hrest
              rw [storeField_errcode_Errmsg]
              rcases h with h | ⟨k, v, hm, hf⟩
              · exact Or.inl h
              · rcases List.mem_cons.mp hm with heq | hm
                · obtain ⟨rfl, rfl⟩ := Prod.mk.inj heq
                  rw [hf0] at hf; cases hf
                · exact Or.inr ⟨k, v, hm, hf⟩

theorem Unmarshal_obj (body : Bytes) (ms : List (Bytes × JValue))
    (h : parseJSON body = some (.obj ms)) :
    Unmarshal body
      = match (storeMembers ⟨⟨0, []⟩, none⟩ ms).savedError with
        | some e => .error e
        | none => .ok (storeMembers ⟨⟨0, []⟩, none⟩ ms).dr := by
  simp only [Unmarshal, h, storeValue]

/-- The result of `Send` is the same under two transports that differ in
status codes only. -/
theorem Send_status_independent (now : Int) (post post' : Transport) (r : Robot)
    (msg : GoVal)
    (h : ∀ q, (post' q).map Response.body = (post q).map Response.body) :
    r.Send now post' msg = r.Send now post msg := by
  unfold Robot.Send
  cases hm : Marshal msg with
  | error e => rfl
  | ok m =>
      dsimp only
      have hq := h ⟨if r.secret ≠ [] then r.webHook ++ genSignedURL now r.secret
        else r.webHook, lit "application/json", m⟩
      cases h1 : post ⟨if r.secret ≠ [] then r.webHook ++ genSignedURL now r.secret
        else r.webHook, lit "application/json", m⟩ with
      | error e1 =>
          cases h2 : post' ⟨if r.secret ≠ [] then r.webHook ++ genSignedURL now r.secret
            else r.webHook, lit "application/json", m⟩ with
          | error e2 =>
              rw [h1, h2] at hq
              simp only [Except.map, Except.error.injEq] at hq
              subst hq
              rfl
          | ok r2 =>
              rw [h1, h2] at hq
              simp [Except.map] at hq
      | ok r1 =>
          cases h2 : post' ⟨if r.secret ≠ [] then r.webHook ++ genSignedURL now r.secret
            else r.webHook, lit "application/json", m⟩ with
          | error e2 =>
              rw [h1, h2] at hq
              simp [Except.map] at hq
          | ok r2 =>
              rw [h1, h2] at hq
              simp only [Except.map, Except.ok.injEq] at hq
              dsimp only
              rw [hq]

/-- C3 (as stated, refuted): the body `{"errcode":0,"errmsg":5}` is a JSON
object whose errcode is 0, and `Send` returns a type error for it. -/
theorem Send_errcode_zero_counterexample :
    parseJSON (lit "\x7b\"errcode\":0,\"errmsg\":5\x7d")
        = some (.obj [(lit "errcode", .num (lit "0")), (lit "errmsg", .num (lit "5"))])
      ∧ ((NewRobot (lit "u")).Send 0
          (fun _ => .ok ⟨200, .ok (lit "\x7b\"errcode\":0,\"errmsg\":5\x7d")⟩)
          (.str (lit "hi"))).err
        = some (.unmarshalType (lit "number") (lit "errmsg")) := by
  refine ⟨by rfl, by decide⟩

/-- C3 (amended): for every status code and every message that serializes and
is delivered, if the response body is `{"errcode":0,"errmsg":""}`, or more
generally a JSON object in which every member stored in `Errcode` is an
integer literal of value 0 and every member stored in `Errmsg` is a string or
`null`, then `Send` returns `nil`; and the result of `Send` does not depend on
the status code. -/
theorem Send_success (now : Int) (post : Transport) (r : Robot) (msg : GoVal)
    (m body : Bytes) (hm : Marshal msg = .ok m) (hp : delivers post body)
    (hbody : body = lit "\x7b\"errcode\":0,\"errmsg\":\"\"\x7d" ∨
      ∃ ms, parseJSON body = some (.obj ms)
        ∧ (∀ k v, (k, v) ∈ ms → fieldOf k = some .errcode →
            ∃ l, v = .num l ∧ parseInt64 l = some 0)
        ∧ (∀ k v, (k, v) ∈ ms → fieldOf k = some .errmsg →
            v = .null ∨ ∃ s, v = .str s)) :
    (r.Send now post msg).err = none
      ∧ ∀ post' : Transport,
          (∀ q, (post' q).map Response.body = (post q).map Response.body) →
          r.Send now post' msg = r.Send now post msg := by
  refine ⟨?_, fun post' h => Send_status_independent now post post' r msg h⟩
  rw [Send_err now post r msg m body hm hp]
  rcases hbody with rfl | ⟨ms, hparse, hc, he⟩
  · have : Unmarshal (lit "\x7b\"errcode\":0,\"errmsg\":\"\"\x7d") = .ok ⟨0, []⟩ := by rfl
    rw [this]
    rfl
  · have hwt : ∀ k v f, (k, v) ∈ ms → fieldOf k = some f → wellTyped f v = true := by
      intro k v f hmem hf
      cases f with
      | errcode =>
          obtain ⟨l, rfl, hl⟩ := hc k v hmem hf
          simp [wellTyped, hl]
      | errmsg =>
          rcases he k v hmem hf with rfl | ⟨s, rfl⟩ <;> rfl
    have hs := storeMembers_wellTyped ms ⟨⟨0, []⟩, none⟩ hwt
    have hcode := storeMembers_Errcode 0 ms ⟨⟨0, []⟩, none⟩ hc (Or.inl rfl)
    rw [Unmarshal_obj body ms hparse, hs]
    simp [hcode]

theorem Send_success_witness :
    Marshal (.str (lit "hi")) = .ok (lit "\"hi\"")
      ∧ delivers (fun _ => .ok ⟨500, .ok (lit "\x7b\"errcode\":0,\"errmsg\":\"\"\x7d")⟩)
          (lit "\x7b\"errcode\":0,\"errmsg\":\"\"\x7d")
      ∧ ((NewRobot (lit "u")).Send 0
          (fun _ => .ok ⟨500, .ok (lit "\x7b\"errcode\":0,\"errmsg\":\"\"\x7d")⟩)
          (.str (lit "hi"))).err = none :=
  ⟨rfl, fun _ => ⟨500, rfl⟩,
    (Send_success 0 (fun _ => .ok ⟨500, .ok (lit "\x7b\"errcode\":0,\"errmsg\":\"\"\x7d")⟩)
      (NewRobot (lit "u")) (.str (lit "hi")) (lit "\"hi\"")
      (lit "\x7b\"errcode\":0,\"errmsg\":\"\"\x7d") rfl (fun _ => ⟨500, rfl⟩)
      (Or.inl rfl)).1⟩

/-- C4 (as stated, refuted): with the integer errcode 9223372036854775808
and the string errmsg `x` the error of `Send` is a type error of the decoder,
not `dingrobot send failed: x`; and with a second member `ERRCODE` of value 0
after errcode 300001 `Send` returns `nil`. -/
theorem Send_rejection_counterexample :
    parseJSON (lit "\x7b\"errcode\":9223372036854775808,\"errmsg\":\"x\"\x7d")
        = some (.obj [(lit "errcode", .num (lit "9223372036854775808")),
            (lit "errmsg", .str (lit "x"))])
      ∧ ((NewRobot (lit "u")).Send 0
          (fun _ => .ok ⟨200,
            .ok (lit "\x7b\"errcode\":9223372036854775808,\"errmsg\":\"x\"\x7d")⟩)
          (.str (lit "hi"))).err
        = some (.unmarshalType (lit "number 9223372036854775808") (lit "errcode"))
      ∧ ((NewRobot (lit "u")).Send 0
          (fun _ => .ok ⟨200,
            .ok (lit "\x7b\"errcode\":9223372036854775808,\"errmsg\":\"x\"\x7d")⟩)
          (.str (lit "hi"))).err
        ≠ some (.errorf (lit "dingrobot send failed: x"))
      ∧ ((NewRobot (lit "u")).Send 0
          (fun _ => .ok ⟨200, .ok (lit
            "\x7b\"errcode\":300001,\"errmsg\":\"token is not exist\",\"ERRCODE\":0\x7d")⟩)
          (.str (lit "hi"))).err = none := by
  refine ⟨by rfl, by decide, by decide, by decide⟩

/-- C4 (amended): for every response body that parses as a JSON object in
which the members stored in `Errcode` (at least one) are all an integer
literal of value `c`, with `c ≠ 0` within the range of a 64-bit `int`, and the
members stored in `Errmsg` (at least one) are all the string `e`, `Send`
returns a failure, never `nil`, whose message is exactly
`"dingrobot send failed: " ++ e` and so contains `e`. -/
theorem Send_rejection (now : Int) (post : Transport) (r : Robot) (msg : GoVal)
    (m body : Bytes) (ms : List (Bytes × JValue)) (c : Int) (e : Bytes)
    (hm : Marshal msg = .ok m) (hp : delivers post body)
    (hparse : parseJSON body = some (.obj ms))
    (hc : ∀ k v, (k, v) ∈ ms → fieldOf k = some .errcode →
      ∃ l, v = .num l ∧ parseInt64 l = some c)
    (hc1 : ∃ k v, (k, v) ∈ ms ∧ fieldOf k = some .errcode)
    (hne : c ≠ 0)
    (he : ∀ k v, (k, v) ∈ ms → fieldOf k = some .errmsg → v = .str e)
    (he1 : ∃ k v, (k, v) ∈ ms ∧ fieldOf k = some .errmsg) :
    (r.Send now post msg).err = some (.errorf (lit "dingrobot send failed: " ++ e))
      ∧ (r.Send now post msg).err ≠ none
      ∧ e <:+: lit "dingrobot send failed: " ++ e := by
  have hwt : ∀ k v f, (k, v) ∈ ms → fieldOf k = some f → wellTyped f v = true := by
    intro k v f hmem hf
    cases f with
    | errcode =>
        obtain ⟨l, rfl, hl⟩ := hc k v hmem hf
        simp [wellTyped, hl]
    | errmsg =>
        rw [he k v hmem hf]; rfl
  have hs := storeMembers_wellTyped ms ⟨⟨0, []⟩, none⟩ hwt
  have hcode := storeMembers_Errcode c ms ⟨⟨0, []⟩, none⟩ hc (Or.inr hc1)
  have hmsg := storeMembers_Errmsg e ms ⟨⟨0, []⟩, none⟩ he (Or.inr he1)
  have herr : (r.Send now post msg).err
      = some (.errorf (lit "dingrobot send failed: " ++ e)) := by
    rw [Send_err now post r msg m body hm hp, Unmarshal_obj body ms hparse, hs]
    simp [hcode, hmsg, hne]
  refine ⟨herr, ?_, ?_⟩
  · rw [herr]; simp
  · exact (List.suffix_append _ _).isInfix

theorem Send_rejection_witness :
    ((NewRobot (lit "u")).Send 0
        (fun _ => .ok ⟨200,
          .ok (lit "\x7b\"errcode\":300001,\"errmsg\":\"token is not exist\"\x7d")⟩)
        (.str (lit "hi"))).err
      = some (.errorf (lit "dingrobot send failed: " ++ lit "token is not exist")) :=
  (Send_rejection 0
    (fun _ => .ok ⟨200,
      .ok (lit "\x7b\"errcode\":300001,\"errmsg\":\"token is not exist\"\x7d")⟩)
    (NewRobot (lit "u")) (.str (lit "hi")) (lit "\"hi\"")
    (lit "\x7b\"errcode\":300001,\"errmsg\":\"token is not exist\"\x7d")
    [(lit "errcode", .num (lit "300001")), (lit "errmsg", .str (lit "token is not exist"))]
    300001 (lit "token is not exist")
    rfl (fun _ => ⟨200, rfl⟩) (by rfl)
    (by
      intro k v hmem hf
      simp only [List.mem_cons, Prod.mk.injEq, List.mem_singleton, List.not_mem_nil,
        or_false] at hmem
      rcases hmem with ⟨rfl, rfl⟩ | ⟨rfl, rfl⟩
      · exact ⟨lit "300001", rfl, by decide⟩
      · exact absurd hf (by decide))
    ⟨lit "errcode", .num (lit "300001"), by simp, by decide⟩
    (by decide)
    (by
      intro k v hmem hf
      simp only [List.mem_cons, Prod.mk.injEq, List.mem_singleton, List.not_mem_nil,
        or_false] at hmem
      rcases hmem with ⟨rfl, rfl⟩ | ⟨rfl, rfl⟩
      · exact absurd hf (by decide)
      · rfl)
    ⟨lit "errmsg", .str (lit "token is not exist"), by simp, by decide⟩).1

/-! ## Soundness of the scanner for the grammar -/

theorem IsWS_nil : IsWS [] := by
  intro c hc; simp at hc

theorem IsWS_cons (c : Nat) (l : Bytes) (hc : isSpace c = true) (hl : IsWS l) :
    IsWS (c :: l) := by
  intro x hx
  rcases List.mem_cons.mp hx with rfl | hx
  · simp only [isSpace, Bool.or_eq_true, decide_eq_true_eq] at hc
    tauto
  · exact hl x hx

theorem IsWS_append (a b : Bytes) (ha : IsWS a) (hb : IsWS b) : IsWS (a ++ b) := by
  intro x hx
  rcases List.mem_append.mp hx with hx | hx
  · exact ha x hx
  · exact hb x hx

theorem skipSpace_spec (l : Bytes) : ∃ w, IsWS w ∧ l = w ++ skipSpace l := by
  induction l with
  | nil => exact ⟨[], IsWS_nil, rfl⟩
  | cons c rest ih =>
      simp only [skipSpace]
      by_cases hc : isSpace c = true
      · obtain ⟨w, hw, hrest⟩ := ih
        refine ⟨c :: w, IsWS_cons c w hc hw, ?_⟩
        simp only [hc, if_true, List.cons_append]
        rw [← hrest]
      · refine ⟨[], IsWS_nil, ?_⟩
        simp [hc]

theorem IsStringBody_append (pre rest : Bytes)
    (hpre : ∀ x ∈ pre, 0x20 ≤ x ∧ x ≠ 34 ∧ x ≠ 92) (hrest : IsStringBody rest) :
    IsStringBody (pre ++ rest) := by
  induction pre with
  | nil => exact hrest
  | cons c pre ih =>
      have hc := hpre c (List.mem_cons_self _ _)
      exact IsStringBody.char c _ hc.1 hc.2.1 hc.2.2
        (ih fun x hx => hpre x (List.mem_cons_of_mem _ hx))

theorem hexVal_isHexDigit (c v : Nat) (h : hexVal c = some v) : IsHexDigit c := by
  unfold hexVal at h
  unfold IsHexDigit
  split at h
  · left; assumption
  · split at h
    · right; left; assumption
    · split at h
      · right; right; assumption
      · cases h

theorem getu4_spec (l : Bytes) (rr : Nat) (h : getu4 l = some rr) :
    ∃ h1 h2 h3 h4 tail, l = 92 :: 117 :: h1 :: h2 :: h3 :: h4 :: tail
      ∧ IsHexDigit h1 ∧ IsHexDigit h2 ∧ IsHexDigit h3 ∧ IsHexDigit h4 := by
  unfold getu4 at h
  split at h
  · rename_i h1 h2 h3 h4 tail
    refine ⟨h1, h2, h3, h4, tail, rfl, ?_⟩
    cases ha : hexVal h1 with
    | none => simp [ha] at h
    | some a =>
      cases hb : hexVal h2 with
      | none => simp [ha, hb] at h
      | some b =>
        cases hc : hexVal h3 with
        | none => simp [ha, hb, hc] at h
        | some c =>
          cases hd : hexVal h4 with
          | none => simp [ha, hb, hc, hd] at h
          | some d =>
            exact ⟨hexVal_isHexDigit _ _ ha, hexVal_isHexDigit _ _ hb,
              hexVal_isHexDigit _ _ hc, hexVal_isHexDigit _ _ hd⟩
  · cases h


theorem decodeRuneTail_take (p0 sz lo hi : Nat) (rest : Bytes) (hp : 0x80 ≤ p0)
    (hlo : 0x80 ≤ lo) :
    ∀ x ∈ (p0 :: rest).take (decodeRuneTail p0 sz lo hi rest).2, 0x80 ≤ x := by
  unfold decodeRuneTail
  split
  · intro x hx; simp at hx; omega
  · rename_i hlen
    dsimp only
    split
    · intro x hx; simp at hx; omega
    · rename_i hb1
      split
      · -- width 2
        intro x hx
        cases rest with
        | nil => simp at hx; omega
        | cons b1 r =>
            simp only [List.getD_cons_zero] at hb1
            simp at hx
            rcases hx with rfl | rfl <;> omega
      · split
        · intro x hx; simp at hx; omega
        · rename_i hsz2 hb2
          split
          · -- width 3
            intro x hx
            rcases rest with _ | ⟨b1, _ | ⟨b2, r⟩⟩
            · simp at hx; omega
            · simp at hx; simp only [List.getD_cons_zero] at hb1; omega
            · simp only [List.getD_cons_zero, List.getD_cons_succ] at hb1 hb2
              simp at hx
              rcases hx with rfl | rfl | rfl <;> omega
          · split
            · intro x hx; simp at hx; omega
            · rename_i hsz3 hb3
              intro x hx
              rcases rest with _ | ⟨b1, _ | ⟨b2, _ | ⟨b3, r⟩⟩⟩
              · simp at hx; omega
              · simp at hx; simp only [List.getD_cons_zero] at hb1; omega
              · simp only [List.getD_cons_zero, List.getD_cons_succ] at hb1 hb2
                simp at hx
                rcases hx with rfl | rfl | rfl <;> omega
              · simp only [List.getD_cons_zero, List.getD_cons_succ] at hb1 hb2 hb3
                simp at hx
                rcases hx with rfl | rfl | rfl | rfl <;> omega

theorem decodeRune_take (c : Nat) (rest : Bytes) (hc : 0x80 ≤ c) :
    ∀ x ∈ (c :: rest).take (decodeRune (c :: rest)).2, 0x80 ≤ x := by
  have hnot : ¬ c < 0x80 := by omega
  simp only [decodeRune, hnot, if_false]
  split
  · intro x hx; simp at hx; omega
  · apply decodeRuneTail_take _ _ _ _ _ hc
    split_ifs <;> omega

theorem utf16Decode_none (rr : Nat) : utf16Decode rr none = 0xFFFD := rfl

theorem scanString_sound (fuel : Nat) :
    ∀ (bs acc s rest : Bytes), scanString fuel bs acc = some (s, rest) →
      ∃ body, IsStringBody body ∧ bs = body ++ 34 :: rest := by
  induction fuel with
  | zero => intro bs acc s rest h; unfold scanString at h; cases h
  | succ n ih =>
      intro bs acc s rest h
      cases bs with
      | nil => unfold scanString at h; cases h
      | cons c tl =>
          unfold scanString at h
          by_cases h34 : c = 34
          · -- closing quote
            rw [if_pos h34] at h
            simp only [Option.some.injEq, Prod.mk.injEq] at h
            subst h34
            exact ⟨[], IsStringBody.nil, by simp [h.2]⟩
          · rw [if_neg h34] at h
            by_cases h92 : c = 92
            · -- backslash
              rw [if_pos h92] at h
              subst h92
              cases tl with
              | nil => cases h
              | cons e rest1 =>
                  dsimp only at h
                  have simple : ∀ b : Nat,
                      (e = 34 ∨ e = 92 ∨ e = 47 ∨ e = 98 ∨ e = 102 ∨ e = 110 ∨ e = 114 ∨ e = 116) →
                      scanString n rest1 (acc ++ [b]) = some (s, rest) →
                      ∃ body, IsStringBody body ∧ 92 :: e :: rest1 = body ++ 34 :: rest := by
                    intro b he hb
                    obtain ⟨body, hbody, hrest⟩ := ih _ _ _ _ hb
                    exact ⟨92 :: e :: body, IsStringBody.esc e body he hbody, by simp [hrest]⟩
                  by_cases e1 : e = 34 ∨ e = 92 ∨ e = 47
                  · rw [if_pos e1] at h
                    exact simple e (by omega) h
                  rw [if_neg e1] at h
                  by_cases e2 : e = 98
                  · rw [if_pos e2] at h
                    exact simple 8 (by omega) h
                  rw [if_neg e2] at h
                  by_cases e3 : e = 102
                  · rw [if_pos e3] at h
                    exact simple 12 (by omega) h
                  rw [if_neg e3] at h
                  by_cases e4 : e = 110
                  · rw [if_pos e4] at h
                    exact simple 10 (by omega) h
                  rw [if_neg e4] at h
                  by_cases e5 : e = 114
                  · rw [if_pos e5] at h
                    exact simple 13 (by omega) h
                  rw [if_neg e5] at h
                  by_cases e6 : e = 116
                  · rw [if_pos e6] at h
                    exact simple 9 (by omega) h
                  rw [if_neg e6] at h
                  by_cases e7 : e = 117
                  · -- a unicode escape
                    rw [if_pos e7] at h
                    cases hg : getu4 (92 :: e :: rest1) with
                    | none => rw [hg] at h; cases h
                    | some rr =>
                        obtain ⟨h1, h2, h3, h4, tail, hl, x1, x2, x3, x4⟩ := getu4_spec _ _ hg
                        simp only [List.cons.injEq, true_and] at hl
                        obtain ⟨-, rfl⟩ := hl
                        rw [hg] at h
                        dsimp only at h
                        have hdrop4 : (h1 :: h2 :: h3 :: h4 :: tail).drop 4 = tail := rfl
                        rw [hdrop4] at h
                        have single : scanString n tail (acc ++ encodeRune rr) = some (s, rest)
                              ∨ scanString n tail (acc ++ encodeRune 0xFFFD) = some (s, rest) →
                            ∃ body, IsStringBody body
                              ∧ 92 :: e :: h1 :: h2 :: h3 :: h4 :: tail = body ++ 34 :: rest := by
                          intro hb
                          have hb' : ∃ a, scanString n tail a = some (s, rest) := by
                            rcases hb with hb | hb
                            · exact ⟨_, hb⟩
                            · exact ⟨_, hb⟩
                          obtain ⟨a, hb'⟩ := hb'
                          obtain ⟨body, hbody, hrest⟩ := ih _ _ _ _ hb'
                          exact ⟨92 :: 117 :: h1 :: h2 :: h3 :: h4 :: body,
                            IsStringBody.uni h1 h2 h3 h4 _ x1 x2 x3 x4 hbody,
                            by simp [hrest, e7]⟩
                        by_cases hsur : 0xD800 ≤ rr ∧ rr < 0xE000
                        · rw [if_pos hsur] at h
                          by_cases hdec : utf16Decode rr (getu4 tail) ≠ 0xFFFD
                          · rw [if_pos hdec] at h
                            cases hg2 : getu4 tail with
                            | none =>
                                rw [hg2] at hdec
                                exact absurd (utf16Decode_none rr) hdec
                            | some rr1 =>
                                obtain ⟨g1, g2, g3, g4, tail2, rfl, y1, y2, y3, y4⟩ :=
                                  getu4_spec _ _ hg2
                                have hdrop10 : (h1 :: h2 :: h3 :: h4 :: 92 :: 117 :: g1 :: g2
                                    :: g3 :: g4 :: tail2).drop 10 = tail2 := rfl
                                rw [hdrop10] at h
                                obtain ⟨body, hb, hrest⟩ := ih _ _ _ _ h
                                refine ⟨92 :: 117 :: h1 :: h2 :: h3 :: h4 :: 92 :: 117 :: g1
                                  :: g2 :: g3 :: g4 :: body, ?_, by simp [hrest, e7]⟩
                                exact IsStringBody.uni h1 h2 h3 h4 _ x1 x2 x3 x4
                                  (IsStringBody.uni g1 g2 g3 g4 _ y1 y2 y3 y4 hb)
                          · rw [if_neg hdec] at h
                            exact single (Or.inr h)
                        · rw [if_neg hsur] at h
                          exact single (Or.inl h)
                  · rw [if_neg e7] at h; cases h
            · rw [if_neg h92] at h
              by_cases h20 : c < 0x20
              · rw [if_pos h20] at h; cases h
              · rw [if_neg h20] at h
                by_cases h80 : c < 0x80
                · -- an ASCII character
                  rw [if_pos h80] at h
                  obtain ⟨body, hb, hrest⟩ := ih _ _ _ _ h
                  exact ⟨c :: body, IsStringBody.char c body (by omega) h34 h92 hb,
                    by simp [hrest]⟩
                · -- a byte from 0x80 on
                  rw [if_neg h80] at h
                  dsimp only at h
                  obtain ⟨body, hb, hrest⟩ := ih _ _ _ _ h
                  refine ⟨(c :: tl).take (decodeRune (c :: tl)).2 ++ body, ?_, ?_⟩
                  · apply IsStringBody_append _ _ _ hb
                    intro x hx
                    have := decodeRune_take c tl (by omega) x hx
                    omega
                  · rw [List.append_assoc, ← hrest, List.take_append_drop]

theorem spanDigits_spec (l : Bytes) :
    l = (spanDigits l).1 ++ (spanDigits l).2 ∧ ∀ c ∈ (spanDigits l).1, 48 ≤ c ∧ c ≤ 57 := by
  induction l with
  | nil => exact ⟨rfl, by simp [spanDigits]⟩
  | cons c rest ih =>
      unfold spanDigits
      by_cases hc : isDigit c = true
      · rw [if_pos hc]
        refine ⟨by simp [List.cons, ← ih.1], ?_⟩
        intro x hx
        rcases List.mem_cons.mp hx with rfl | hx
        · simpa [isDigit] using hc
        · exact ih.2 x hx
      · rw [if_neg hc]
        exact ⟨rfl, by simp⟩

theorem scanInt_sound (bs ip r : Bytes) (h : scanInt bs = some (ip, r)) :
    bs = ip ++ r ∧ (ip = [48] ∨ (IsDigits ip ∧ ip.head? ≠ some 48)) := by
  cases bs with
  | nil => cases h
  | cons c rest =>
      unfold scanInt at h
      dsimp only at h
      by_cases h0 : c = 48
      · rw [if_pos h0] at h
        simp only [Option.some.injEq, Prod.mk.injEq] at h
        obtain ⟨rfl, rfl⟩ := h
        exact ⟨by simp [h0], Or.inl rfl⟩
      · rw [if_neg h0] at h
        by_cases hd : isDigit c = true
        · rw [if_pos hd] at h
          simp only [Option.some.injEq, Prod.mk.injEq] at h
          obtain ⟨rfl, rfl⟩ := h
          have hs := spanDigits_spec rest
          refine ⟨by simp [← hs.1], Or.inr ⟨⟨by simp, ?_⟩, by simpa using h0⟩⟩
          intro x hx
          rcases List.mem_cons.mp hx with rfl | hx
          · simpa [isDigit] using hd
          · exact hs.2 x hx
        · rw [if_neg hd] at h; cases h

theorem scanFrac_sound (bs fp r : Bytes) (h : scanFrac bs = some (fp, r)) :
    bs = fp ++ r ∧ (fp = [] ∨ ∃ ds, IsDigits ds ∧ fp = 46 :: ds) := by
  cases bs with
  | nil =>
      simp only [scanFrac, Option.some.injEq, Prod.mk.injEq] at h
      obtain ⟨rfl, rfl⟩ := h
      exact ⟨rfl, Or.inl rfl⟩
  | cons c rest =>
      unfold scanFrac at h
      dsimp only at h
      by_cases hc : c = 46
      · rw [if_pos hc] at h
        by_cases he : (spanDigits rest).1 = []
        · rw [if_pos he] at h; cases h
        · rw [if_neg he] at h
          simp only [Option.some.injEq, Prod.mk.injEq] at h
          obtain ⟨rfl, rfl⟩ := h
          have hs := spanDigits_spec rest
          exact ⟨by simp [hc, ← hs.1], Or.inr ⟨_, ⟨he, hs.2⟩, rfl⟩⟩
      · rw [if_neg hc] at h
        simp only [Option.some.injEq, Prod.mk.injEq] at h
        obtain ⟨rfl, rfl⟩ := h
        exact ⟨rfl, Or.inl rfl⟩

theorem scanExpSign_spec (l : Bytes) :
    l = (scanExpSign l).1 ++ (scanExpSign l).2
      ∧ ((scanExpSign l).1 = [] ∨ (scanExpSign l).1 = [43] ∨ (scanExpSign l).1 = [45]) := by
  cases l with
  | nil => exact ⟨rfl, Or.inl rfl⟩
  | cons s rest =>
      unfold scanExpSign
      dsimp only
      by_cases hs : s = 43 ∨ s = 45
      · rw [if_pos hs]
        refine ⟨rfl, ?_⟩
        rcases hs with rfl | rfl
        · exact Or.inr (Or.inl rfl)
        · exact Or.inr (Or.inr rfl)
      · rw [if_neg hs]
        exact ⟨rfl, Or.inl rfl⟩

theorem scanExp_sound (bs ep r : Bytes) (h : scanExp bs = some (ep, r)) :
    bs = ep ++ r ∧ (ep = [] ∨ ∃ e sg ds, (e = 101 ∨ e = 69) ∧ (sg = [] ∨ sg = [43] ∨ sg = [45])
      ∧ IsDigits ds ∧ ep = e :: sg ++ ds) := by
  cases bs with
  | nil =>
      simp only [scanExp, Option.some.injEq, Prod.mk.injEq] at h
      obtain ⟨rfl, rfl⟩ := h
      exact ⟨rfl, Or.inl rfl⟩
  | cons e rest =>
      unfold scanExp at h
      dsimp only at h
      by_cases he : e = 101 ∨ e = 69
      · rw [if_pos he] at h
        by_cases hd : (spanDigits (scanExpSign rest).2).1 = []
        · rw [if_pos hd] at h; cases h
        · rw [if_neg hd] at h
          simp only [Option.some.injEq, Prod.mk.injEq] at h
          obtain ⟨rfl, rfl⟩ := h
          have hs := spanDigits_spec (scanExpSign rest).2
          have hg := scanExpSign_spec rest
          refine ⟨?_, Or.inr ⟨e, _, _, he, hg.2, ⟨hd, hs.2⟩, rfl⟩⟩
          have e1 : (scanExpSign rest).1 ++ (spanDigits (scanExpSign rest).2).1
              ++ (spanDigits (scanExpSign rest).2).2 = rest := by
            rw [List.append_assoc, ← hs.1, ← hg.1]
          exact congrArg (List.cons e) e1.symm
      · rw [if_neg he] at h
        simp only [Option.some.injEq, Prod.mk.injEq] at h
        obtain ⟨rfl, rfl⟩ := h
        exact ⟨rfl, Or.inl rfl⟩

theorem scanMinus_spec (l : Bytes) :
    l = (scanMinus l).1 ++ (scanMinus l).2
      ∧ ((scanMinus l).1 = [] ∨ (scanMinus l).1 = [45]) := by
  cases l with
  | nil => exact ⟨rfl, Or.inl rfl⟩
  | cons c rest =>
      unfold scanMinus
      dsimp only
      by_cases hc : c = 45
      · rw [if_pos hc]; exact ⟨by simp [hc], Or.inr rfl⟩
      · rw [if_neg hc]; exact ⟨rfl, Or.inl rfl⟩

theorem scanNumber_sound (bs l r : Bytes) (h : scanNumber bs = some (l, r)) :
    IsNumber l ∧ bs = l ++ r := by
  unfold scanNumber at h
  cases hi : scanInt (scanMinus bs).2 with
  | none => rw [hi] at h; cases h
  | some p1 =>
      obtain ⟨ip, r1⟩ := p1
      rw [hi] at h
      dsimp only at h
      cases hf : scanFrac r1 with
      | none => rw [hf] at h; cases h
      | some p2 =>
          obtain ⟨fp, r2⟩ := p2
          rw [hf] at h
          dsimp only at h
          cases hx : scanExp r2 with
          | none => rw [hx] at h; cases h
          | some p3 =>
              obtain ⟨ep, r3⟩ := p3
              rw [hx] at h
              simp only [Option.some.injEq, Prod.mk.injEq] at h
              obtain ⟨rfl, rfl⟩ := h
              have h1 := scanInt_sound _ _ _ hi
              have h2 := scanFrac_sound _ _ _ hf
              have h3 := scanExp_sound _ _ _ hx
              have h0 := scanMinus_spec bs
              refine ⟨⟨(scanMinus bs).1, ip, fp, ep, rfl, h0.2, h1.2, h2.2, h3.2⟩, ?_⟩
              calc bs = (scanMinus bs).1 ++ (scanMinus bs).2 := h0.1
                _ = (scanMinus bs).1 ++ (ip ++ (fp ++ (ep ++ r3))) := by
                    rw [h1.1, h2.1, h3.1]
                _ = (scanMinus bs).1 ++ ip ++ fp ++ ep ++ r3 := by
                    simp only [List.append_assoc]

theorem IsElements_prepend (w l : Bytes) (hw : IsWS w) (hl : IsElements l) :
    IsElements (w ++ l) := by
  cases hl with
  | one a v b ha hv hb =>
      have := IsElements.one (w ++ a) v b (IsWS_append w a hw ha) hv hb
      simpa only [List.append_assoc] using this
  | cons a v b rest ha hv hb hrest =>
      have := IsElements.cons (w ++ a) v b rest (IsWS_append w a hw ha) hv hb hrest
      simpa only [List.append_assoc] using this

theorem IsMembers_prepend (w l : Bytes) (hw : IsWS w) (hl : IsMembers l) :
    IsMembers (w ++ l) := by
  cases hl with
  | one a k b c v d ha hk hb hc hv hd =>
      have := IsMembers.one (w ++ a) k b c v d (IsWS_append w a hw ha) hk hb hc hv hd
      simpa only [List.append_assoc] using this
  | cons a k b c v d rest ha hk hb hc hv hd hrest =>
      have := IsMembers.cons (w ++ a) k b c v d rest (IsWS_append w a hw ha) hk hb hc hv hd
        hrest
      simpa only [List.append_assoc] using this

theorem scanElems_sound (pv : Bytes → Option (JValue × Bytes)) (hpv : ScansValues pv)
    (n : Nat) :
    ∀ (bs : Bytes) (acc : List JValue) (v : JValue) (rest : Bytes),
      scanElems pv n bs acc = some (v, rest) →
      ∃ l, IsElements l ∧ bs = l ++ 93 :: rest := by
  induction n with
  | zero => intro bs acc v rest h; unfold scanElems at h; cases h
  | succ n ih =>
      intro bs acc v rest h
      unfold scanElems at h
      cases hp : pv bs with
      | none => rw [hp] at h; cases h
      | some p =>
          obtain ⟨v1, r1⟩ := p
          rw [hp] at h
          dsimp only at h
          obtain ⟨a, t, ha, ht, hbs⟩ := hpv bs v1 r1 hp
          obtain ⟨w, hw, hr1⟩ := skipSpace_spec r1
          split at h
          · rename_i r2 hsk
            obtain ⟨l, hl, hr2⟩ := ih _ _ _ _ h
            refine ⟨a ++ t ++ w ++ 44 :: l, IsElements.cons a t w l ha ht hw hl, ?_⟩
            rw [hbs, hr1, hsk, hr2]
            simp only [List.append_assoc, List.cons_append]
          · rename_i r2 hsk
            simp only [Option.some.injEq, Prod.mk.injEq] at h
            obtain ⟨-, rfl⟩ := h
            refine ⟨a ++ t ++ w, IsElements.one a t w ha ht hw, ?_⟩
            rw [hbs, hr1, hsk]
            simp only [List.append_assoc]
          · cases h

theorem scanMembers_sound (pv : Bytes → Option (JValue × Bytes)) (hpv : ScansValues pv)
    (n : Nat) :
    ∀ (bs : Bytes) (acc : List (Bytes × JValue)) (v : JValue) (rest : Bytes),
      scanMembers pv n bs acc = some (v, rest) →
      ∃ l, IsMembers l ∧ bs = l ++ 125 :: rest := by
  induction n with
  | zero => intro bs acc v rest h; unfold scanMembers at h; cases h
  | succ n ih =>
      intro bs acc v rest h
      unfold scanMembers at h
      obtain ⟨w0, hw0, hbs⟩ := skipSpace_spec bs
      split at h
      · rename_i r0 hsk0
        cases hs : scanString r0.length r0 [] with
        | none => rw [hs] at h; cases h
        | some p =>
            obtain ⟨k, r1⟩ := p
            rw [hs] at h
            dsimp only at h
            obtain ⟨body, hbody, hr0⟩ := scanString_sound _ _ _ _ _ hs
            obtain ⟨w1, hw1, hr1⟩ := skipSpace_spec r1
            split at h
            · rename_i r2 hsk1
              cases hp : pv r2 with
              | none => rw [hp] at h; cases h
              | some q =>
                  obtain ⟨v1, r3⟩ := q
                  rw [hp] at h
                  dsimp only at h
                  obtain ⟨a, t, ha, ht, hr2⟩ := hpv r2 v1 r3 hp
                  obtain ⟨w3, hw3, hr3⟩ := skipSpace_spec r3
                  split at h
                  · rename_i r4 hsk3
                    obtain ⟨l, hl, hr4⟩ := ih _ _ _ _ h
                    refine ⟨w0 ++ 34 :: body ++ 34 :: w1 ++ 58 :: a ++ t ++ w3 ++ 44 :: l,
                      IsMembers.cons w0 body w1 a t w3 l hw0 hbody hw1 ha ht hw3 hl, ?_⟩
                    rw [hbs, hsk0, hr0, hr1, hsk1, hr2, hr3, hsk3, hr4]
                    simp only [List.append_assoc, List.cons_append]
                  · rename_i r4 hsk3
                    simp only [Option.some.injEq, Prod.mk.injEq] at h
                    obtain ⟨-, rfl⟩ := h
                    refine ⟨w0 ++ 34 :: body ++ 34 :: w1 ++ 58 :: a ++ t ++ w3,
                      IsMembers.one w0 body w1 a t w3 hw0 hbody hw1 ha ht hw3, ?_⟩
                    rw [hbs, hsk0, hr0, hr1, hsk1, hr2, hr3, hsk3]
                    simp only [List.append_assoc, List.cons_append]
                  · cases h
            · cases h
      · cases h

theorem head?_tail (l : Bytes) (c : Nat) (h : l.head? = some c) : l = c :: l.tail := by
  cases l with
  | nil => cases h
  | cons x xs => simp at h; simp [h]

theorem scanValue_sound (fuel : Nat) : ∀ depth, ScansValues (scanValue fuel depth) := by
  induction fuel with
  | zero => intro depth bs v rest h; unfold scanValue at h; cases h
  | succ n ih =>
      intro depth bs v rest h
      unfold scanValue at h
      obtain ⟨w0, hw0, hbs⟩ := skipSpace_spec bs
      cases hsk0 : skipSpace bs with
      | nil => rw [hsk0] at h; cases h
      | cons c r0 =>
          rw [hsk0] at h hbs
          dsimp only at h
          obtain ⟨w1, hw1, hr0⟩ := skipSpace_spec r0
          by_cases c1 : c = 123
          · -- an object
            rw [if_pos c1] at h
            subst c1
            split_ifs at h with hdepth hempty
            · simp only [Option.some.injEq, Prod.mk.injEq] at h
              obtain ⟨-, rfl⟩ := h
              refine ⟨w0, 123 :: w1 ++ [125], hw0, IsValue.emptyObject w1 hw1, ?_⟩
              have e := head?_tail _ _ hempty
              rw [hbs]
              conv_lhs => rw [hr0, e]
              simp only [List.append_assoc, List.cons_append, List.nil_append]
            · obtain ⟨l, hl, hr1⟩ := scanMembers_sound _ (ih (depth + 1)) _ _ _ _ _ h
              refine ⟨w0, 123 :: (w1 ++ l) ++ [125], hw0,
                IsValue.object _ (IsMembers_prepend w1 l hw1 hl), ?_⟩
              rw [hbs, hr0, hr1]
              simp only [List.append_assoc, List.cons_append, List.nil_append]
          rw [if_neg c1] at h
          by_cases c2 : c = 91
          · -- an array
            rw [if_pos c2] at h
            subst c2
            split_ifs at h with hdepth hempty
            · simp only [Option.some.injEq, Prod.mk.injEq] at h
              obtain ⟨-, rfl⟩ := h
              refine ⟨w0, 91 :: w1 ++ [93], hw0, IsValue.emptyArray w1 hw1, ?_⟩
              have e := head?_tail _ _ hempty
              rw [hbs]
              conv_lhs => rw [hr0, e]
              simp only [List.append_assoc, List.cons_append, List.nil_append]
            · obtain ⟨l, hl, hr1⟩ := scanElems_sound _ (ih (depth + 1)) _ _ _ _ _ h
              refine ⟨w0, 91 :: (w1 ++ l) ++ [93], hw0,
                IsValue.array _ (IsElements_prepend w1 l hw1 hl), ?_⟩
              rw [hbs, hr0, hr1]
              simp only [List.append_assoc, List.cons_append, List.nil_append]
          rw [if_neg c2] at h
          by_cases c3 : c = 34
          · -- a string
            rw [if_pos c3] at h
            subst c3
            cases hs : scanString r0.length r0 [] with
            | none => rw [hs] at h; cases h
            | some p =>
                obtain ⟨s, r1⟩ := p
                rw [hs] at h
                simp only [Option.some.injEq, Prod.mk.injEq] at h
                obtain ⟨-, rfl⟩ := h
                obtain ⟨body, hbody, hr0'⟩ := scanString_sound _ _ _ _ _ hs
                refine ⟨w0, 34 :: body ++ [34], hw0, IsValue.string body hbody, ?_⟩
                rw [hbs, hr0']
                simp only [List.append_assoc, List.cons_append, List.nil_append]
          rw [if_neg c3] at h
          by_cases c4 : c = 116
          · rw [if_pos c4] at h
            subst c4
            split_ifs at h with ht
            simp only [Option.some.injEq, Prod.mk.injEq] at h
            obtain ⟨-, rfl⟩ := h
            refine ⟨w0, [116, 114, 117, 101], hw0, IsValue.true, ?_⟩
            rw [hbs]
            conv_lhs => rw [← List.take_append_drop 3 r0, ht]
            simp only [List.append_assoc, List.cons_append, List.nil_append]
          rw [if_neg c4] at h
          by_cases c5 : c = 102
          · rw [if_pos c5] at h
            subst c5
            split_ifs at h with ht
            simp only [Option.some.injEq, Prod.mk.injEq] at h
            obtain ⟨-, rfl⟩ := h
            refine ⟨w0, [102, 97, 108, 115, 101], hw0, IsValue.false, ?_⟩
            rw [hbs]
            conv_lhs => rw [← List.take_append_drop 4 r0, ht]
            simp only [List.append_assoc, List.cons_append, List.nil_append]
          rw [if_neg c5] at h
          by_cases c6 : c = 110
          · rw [if_pos c6] at h
            subst c6
            split_ifs at h with ht
            simp only [Option.some.injEq, Prod.mk.injEq] at h
            obtain ⟨-, rfl⟩ := h
            refine ⟨w0, [110, 117, 108, 108], hw0, IsValue.null, ?_⟩
            rw [hbs]
            conv_lhs => rw [← List.take_append_drop 3 r0, ht]
            simp only [List.append_assoc, List.cons_append, List.nil_append]
          rw [if_neg c6] at h
          -- a number
          cases hnum : scanNumber (c :: r0) with
          | none => rw [hnum] at h; cases h
          | some p =>
              obtain ⟨l, r1⟩ := p
              rw [hnum] at h
              simp only [Option.some.injEq, Prod.mk.injEq] at h
              obtain ⟨-, rfl⟩ := h
              obtain ⟨hl, hsk⟩ := scanNumber_sound _ _ _ hnum
              refine ⟨w0, l, hw0, IsValue.number l hl, ?_⟩
              rw [List.append_assoc, ← hsk]
              exact hbs

/-- The scanner accepts only texts of the grammar. -/
theorem parseJSON_sound (data : Bytes) (v : JValue) (h : parseJSON data = some v) :
    IsJSON data := by
  unfold parseJSON at h
  cases hs : scanValue (data.length + 1) 0 data with
  | none => rw [hs] at h; cases h
  | some p =>
      obtain ⟨v1, rest⟩ := p
      rw [hs] at h
      dsimp only at h
      obtain ⟨a, t, ha, ht, hdata⟩ := scanValue_sound _ _ _ _ _ hs
      by_cases hr : skipSpace rest = []
      · obtain ⟨w, hw, hrest⟩ := skipSpace_spec rest
        rw [hr, List.append_nil] at hrest
        exact ⟨a, t, rest, ha, ht, hrest ▸ hw, hdata⟩
      · rw [if_neg hr] at h; cases h

theorem IsNumber_head (l : Bytes) (h : IsNumber l) : l.head? ≠ some 123 := by
  obtain ⟨sign, ip, fp, ep, rfl, hs, hi, -, -⟩ := h
  rcases hs with rfl | rfl
  · rcases hi with rfl | ⟨⟨hne, hd⟩, -⟩
    · simp
    · cases ip with
      | nil => exact absurd rfl hne
      | cons d ds =>
          have := hd d (List.mem_cons_self _ _)
          simp only [List.nil_append, List.cons_append, List.head?_cons, ne_eq,
            Option.some.injEq]
          omega
  · simp

theorem getLast?_closing (x : Nat) (l : Bytes) (y : Nat) :
    (x :: l ++ [y]).getLast? = some y := by
  have : x :: l ++ [y] = (x :: l) ++ [y] := rfl
  rw [this, List.getLast?_append]
  rfl

/-- A value of the grammar that starts with an opening brace ends with a
closing brace. -/
theorem IsValue_brace (v : Bytes) (h : IsValue v) (hh : v.head? = some 123) :
    v.getLast? = some 125 := by
  cases h with
  | null => simp at hh
  | true => simp at hh
  | false => simp at hh
  | number _ hl => exact absurd hh (IsNumber_head _ hl)
  | string s hs => simp at hh
  | emptyArray w hw => simp at hh
  | array l hl => simp at hh
  | emptyObject w hw => exact getLast?_closing 123 w 125
  | object l hl => exact getLast?_closing 123 l 125

theorem IsValue_ne_nil (v : Bytes) (h : IsValue v) : v ≠ [] := by
  cases h with
  | number _ hl =>
      obtain ⟨sign, ip, fp, ep, rfl, -, hi, -, -⟩ := hl
      rcases hi with rfl | ⟨⟨hne, -⟩, -⟩
      · simp
      · simp [hne]
  | null => simp
  | true => simp
  | false => simp
  | string s hs => simp
  | emptyArray w hw => simp
  | array l hl => simp
  | emptyObject w hw => simp
  | object l hl => simp

/-- The empty text is not JSON. -/
theorem not_IsJSON_nil : ¬ IsJSON [] := by
  rintro ⟨a, v, b, -, hv, -, h⟩
  have hne := IsValue_ne_nil v hv
  have : v = [] := by
    have h' := h.symm
    simp only [List.append_eq_nil] at h'
    exact h'.1.2
  exact hne this

/-- A text without white space that starts with an opening brace and does not
end with a closing brace is not JSON. -/
theorem not_IsJSON_of_open_brace (l : Bytes) (hws : ∀ c ∈ l, ¬ (c = 32 ∨ c = 9 ∨ c = 13 ∨ c = 10))
    (hhead : l.head? = some 123) (hlast : l.getLast? ≠ some 125) : ¬ IsJSON l := by
  rintro ⟨a, v, b, ha, hv, hb, h⟩
  have ha' : a = [] := by
    cases a with
    | nil => rfl
    | cons x xs =>
        have hx : x ∈ l := by rw [h]; simp
        exact absurd (ha x (List.mem_cons_self _ _)) (hws x hx)
  have hb' : b = [] := by
    cases b with
    | nil => rfl
    | cons x xs =>
        have hx : x ∈ l := by rw [h]; simp
        exact absurd (hb x (List.mem_cons_self _ _)) (hws x hx)
  subst ha' hb'
  simp only [List.nil_append, List.append_nil] at h
  subst h
  exact hlast (IsValue_brace _ hv hhead)

/-- C5: for every response body that is not syntactically valid JSON (not a
text of the JSON grammar), `Send` returns the decoder's syntax error and never
`nil`; the empty body and the truncated body `{"errcode":0` are such
bodies. -/
theorem Send_malformed (now : Int) (post : Transport) (r : Robot) (msg : GoVal)
    (m body : Bytes) (hm : Marshal msg = .ok m) (hp : delivers post body)
    (hbad : ¬ IsJSON body) :
    (r.Send now post msg).err = some .syntaxError
      ∧ (r.Send now post msg).err ≠ none
      ∧ ¬ IsJSON []
      ∧ ¬ IsJSON (lit "\x7b\"errcode\":0") := by
  have hnone : parseJSON body = none := by
    cases hparse : parseJSON body with
    | none => rfl
    | some v => exact absurd (parseJSON_sound body v hparse) hbad
  have herr : (r.Send now post msg).err = some .syntaxError := by
    rw [Send_err now post r msg m body hm hp]
    simp [Unmarshal, hnone]
  refine ⟨herr, ?_, not_IsJSON_nil, ?_⟩
  · rw [herr]; simp
  · exact not_IsJSON_of_open_brace _ (by decide) (by decide) (by decide)

theorem Send_malformed_witness :
    ¬ IsJSON (lit "\x7b\"errcode\":0,\"errmsg\":\"")
      ∧ ((NewRobot (lit "u")).Send 0
          (fun _ => .ok ⟨200, .ok (lit "\x7b\"errcode\":0,\"errmsg\":\"")⟩)
          (.str (lit "hi"))).err = some .syntaxError :=
  ⟨not_IsJSON_of_open_brace _ (by decide) (by decide) (by decide),
    (Send_malformed 0 (fun _ => .ok ⟨200, .ok (lit "\x7b\"errcode\":0,\"errmsg\":\"")⟩)
      (NewRobot (lit "u")) (.str (lit "hi")) (lit "\"hi\"")
      (lit "\x7b\"errcode\":0,\"errmsg\":\"") rfl (fun _ => ⟨200, rfl⟩)
      (not_IsJSON_of_open_brace _ (by decide) (by decide) (by decide))).1⟩

/-- C6 (as stated, refuted): for the bodies `null`, `{}` and `{"errmsg":"x"}`
(no errcode key) `Send` returns `nil`. -/
theorem Send_wrong_shape_counterexample :
    ((NewRobot (lit "u")).Send 0 (fun _ => .ok ⟨200, .ok (lit "null")⟩)
        (.str (lit "hi"))).err = none
      ∧ ((NewRobot (lit "u")).Send 0 (fun _ => .ok ⟨200, .ok (lit "\x7b\x7d")⟩)
        (.str (lit "hi"))).err = none
      ∧ ((NewRobot (lit "u")).Send 0
        (fun _ => .ok ⟨200, .ok (lit "\x7b\"errmsg\":\"x\"\x7d")⟩)
        (.str (lit "hi"))).err = none := by
  decide

theorem skipSpace_append_ws (a l : Bytes) (ha : IsWS a) : skipSpace (a ++ l) = skipSpace l := by
  induction a with
  | nil => rfl
  | cons c a ih =>
      have hc : isSpace c = true := by
        have := ha c (List.mem_cons_self _ _)
        simp only [isSpace, Bool.or_eq_true, decide_eq_true_eq]
        tauto
      simp only [List.cons_append, skipSpace, hc, if_true]
      exact ih fun x hx => ha x (List.mem_cons_of_mem _ hx)

theorem skipSpace_ws (b : Bytes) (hb : IsWS b) : skipSpace b = [] := by
  have := skipSpace_append_ws b [] hb
  simpa using this

theorem skipSpace_cons (c : Nat) (r : Bytes) (hc : isSpace c = false) :
    skipSpace (c :: r) = c :: r := by
  simp [skipSpace, hc]

/-- The first byte of a value of the grammar tells its kind; a value that
starts with `n` is `null`. -/
theorem IsValue_head (t : Bytes) (h : IsValue t) :
    ∃ c t', t = c :: t' ∧
      ((c = 110 ∧ t = [110, 117, 108, 108]) ∨ c = 116 ∨ c = 102 ∨ c = 45
        ∨ (48 ≤ c ∧ c ≤ 57) ∨ c = 34 ∨ c = 91 ∨ c = 123) := by
  cases h with
  | null => exact ⟨110, _, rfl, Or.inl ⟨rfl, rfl⟩⟩
  | true => exact ⟨116, _, rfl, by simp⟩
  | false => exact ⟨102, _, rfl, by simp⟩
  | number _ hl =>
      obtain ⟨sign, ip, fp, ep, rfl, hs, hi, -, -⟩ := hl
      rcases hs with rfl | rfl
      · rcases hi with rfl | ⟨⟨hne, hd⟩, -⟩
        · exact ⟨48, _, rfl, by simp⟩
        · cases ip with
          | nil => exact absurd rfl hne
          | cons d ds =>
              have := hd d (List.mem_cons_self _ _)
              refine ⟨d, _, rfl, ?_⟩
              right; right; right; right; left
              exact this
      · exact ⟨45, _, rfl, by simp⟩
  | string s hs => exact ⟨34, _, rfl, by simp⟩
  | emptyArray w hw => exact ⟨91, _, rfl, by simp⟩
  | array l hl => exact ⟨91, _, rfl, by simp⟩
  | emptyObject w hw => exact ⟨123, _, rfl, by simp⟩
  | object l hl => exact ⟨123, _, rfl, by simp⟩

theorem scanElems_arr (pv : Bytes → Option (JValue × Bytes)) (n : Nat) :
    ∀ (bs : Bytes) (acc : List JValue) (v : JValue) (rest : Bytes),
      scanElems pv n bs acc = some (v, rest) → ∃ xs, v = .arr xs := by
  induction n with
  | zero => intro bs acc v rest h; unfold scanElems at h; cases h
  | succ n ih =>
      intro bs acc v rest h
      unfold scanElems at h
      cases hp : pv bs with
      | none => rw [hp] at h; cases h
      | some p =>
          obtain ⟨v1, r1⟩ := p
          rw [hp] at h
          dsimp only at h
          split at h
          · exact ih _ _ _ _ h
          · simp only [Option.some.injEq, Prod.mk.injEq] at h
            exact ⟨_, h.1.symm⟩
          · cases h

/-- A value the scanner reads at a first byte other than `{` and `n` is an
array, a string, a boolean or a number. -/
theorem scanValue_kind (fuel depth c : Nat) (bs rest r : Bytes) (v : JValue)
    (h : scanValue fuel depth bs = some (v, r)) (hsk : skipSpace bs = c :: rest)
    (h123 : c ≠ 123) (h110 : c ≠ 110) :
    (∃ xs, v = .arr xs) ∨ (∃ s, v = .str s) ∨ (∃ b, v = .bool b) ∨ (∃ l, v = .num l) := by
  cases fuel with
  | zero => unfold scanValue at h; cases h
  | succ n =>
      unfold scanValue at h
      rw [hsk] at h
      dsimp only at h
      rw [if_neg h123] at h
      by_cases c2 : c = 91
      · rw [if_pos c2] at h
        left
        split_ifs at h with hdepth hempty
        · simp only [Option.some.injEq, Prod.mk.injEq] at h
          exact ⟨_, h.1.symm⟩
        · exact scanElems_arr _ _ _ _ _ _ h
      rw [if_neg c2] at h
      by_cases c3 : c = 34
      · rw [if_pos c3] at h
        right; left
        cases hs : scanString rest.length rest [] with
        | none => rw [hs] at h; cases h
        | some p =>
            rw [hs] at h
            simp only [Option.some.injEq, Prod.mk.injEq] at h
            exact ⟨_, h.1.symm⟩
      rw [if_neg c3] at h
      by_cases c4 : c = 116
      · rw [if_pos c4] at h
        right; right; left
        split_ifs at h
        simp only [Option.some.injEq, Prod.mk.injEq] at h
        exact ⟨_, h.1.symm⟩
      rw [if_neg c4] at h
      by_cases c5 : c = 102
      · rw [if_pos c5] at h
        right; right; left
        split_ifs at h
        simp only [Option.some.injEq, Prod.mk.injEq] at h
        exact ⟨_, h.1.symm⟩
      rw [if_neg c5, if_neg h110] at h
      right; right; right
      cases hnum : scanNumber (c :: rest) with
      | none => rw [hnum] at h; cases h
      | some p =>
          rw [hnum] at h
          simp only [Option.some.injEq, Prod.mk.injEq] at h
          exact ⟨_, h.1.symm⟩

/-- The decoder reads `null`, white space around it allowed, as `null`. -/
theorem parseJSON_null (a b : Bytes) (ha : IsWS a) (hb : IsWS b) :
    parseJSON (a ++ [110, 117, 108, 108] ++ b) = some .null := by
  unfold parseJSON
  have hsk : skipSpace (a ++ [110, 117, 108, 108] ++ b) = 110 :: 117 :: 108 :: 108 :: b := by
    rw [List.append_assoc, skipSpace_append_ws _ _ ha]
    exact skipSpace_cons _ _ (by decide)
  unfold scanValue
  rw [hsk]
  simp [skipSpace_ws b hb]

/-- The decoder reads `{}`, white space around and inside it allowed, as the
object without members. -/
theorem parseJSON_emptyObject (a w b : Bytes) (ha : IsWS a) (hw : IsWS w) (hb : IsWS b) :
    parseJSON (a ++ 123 :: w ++ 125 :: b) = some (.obj []) := by
  unfold parseJSON
  have hsk : skipSpace (a ++ 123 :: w ++ 125 :: b) = 123 :: (w ++ 125 :: b) := by
    rw [List.append_assoc, skipSpace_append_ws _ _ ha]
    exact skipSpace_cons _ _ (by decide)
  have hsk2 : skipSpace (w ++ 125 :: b) = 125 :: b := by
    rw [skipSpace_append_ws _ _ hw]
    exact skipSpace_cons _ _ (by decide)
  unfold scanValue
  rw [hsk]
  simp [hsk2, skipSpace_ws b hb, maxNestingDepth]

/-- What `Send` returns for a body the decoder has parsed as `v`. -/
theorem Send_of_parsed (now : Int) (post : Transport) (r : Robot) (msg : GoVal)
    (m body : Bytes) (v : JValue) (hm : Marshal msg = .ok m) (hp : delivers post body)
    (hparse : parseJSON body = some v) :
    ((∀ ms, v ≠ .obj ms) → v ≠ .null →
        ∃ val, (r.Send now post msg).err = some (.unmarshalType val []))
      ∧ (∀ ms, v = .obj ms →
          (∃ k x f, (k, x) ∈ ms ∧ fieldOf k = some f ∧ wellTyped f x = false) →
          ∃ val fld, (r.Send now post msg).err = some (.unmarshalType val fld))
      ∧ (v = .null ∨ v = .obj [] → (r.Send now post msg).err = none)
      ∧ (∀ ms, v = .obj ms →
          (∀ k x, (k, x) ∈ ms → fieldOf k ≠ some .errcode) →
          (∀ k x, (k, x) ∈ ms → fieldOf k = some .errmsg → x = .null ∨ ∃ s, x = .str s) →
          (r.Send now post msg).err = none) := by
  rw [Send_err now post r msg m body hm hp]
  refine ⟨?_, ?_, ?_, ?_⟩
  · intro hobj hnull
    cases v with
    | null => exact absurd rfl hnull
    | obj ms => exact absurd rfl (hobj ms)
    | bool b =>
        exact ⟨lit "bool", by simp [Unmarshal, hparse, storeValue, decodeState.saveError]⟩
    | num l =>
        exact ⟨lit "number", by simp [Unmarshal, hparse, storeValue, decodeState.saveError]⟩
    | str s =>
        exact ⟨lit "string", by simp [Unmarshal, hparse, storeValue, decodeState.saveError]⟩
    | arr xs =>
        exact ⟨lit "array", by simp [Unmarshal, hparse, storeValue, decodeState.saveError]⟩
  · intro ms hv hbad
    subst hv
    rw [Unmarshal_obj body ms hparse]
    have hne := storeMembers_illTyped ms ⟨⟨0, []⟩, none⟩ hbad
    cases hs : (storeMembers ⟨⟨0, []⟩, none⟩ ms).savedError with
    | none => exact absurd hs hne
    | some e =>
        -- every error the decoder saves is a type error
        have key : ∀ (ms : List (Bytes × JValue)) (d : decodeState),
            (∀ e, d.savedError = some e → ∃ val fld, e = .unmarshalType val fld) →
            ∀ e, (storeMembers d ms).savedError = some e →
              ∃ val fld, e = .unmarshalType val fld := by
          intro ms
          induction ms with
          | nil => intro d hd e he; exact hd e he
          | cons kv ms ih =>
              intro d hd e he
              obtain ⟨k0, v0⟩ := kv
              simp only [storeMembers] at he
              cases hf : fieldOf k0 with
              | none => rw [hf] at he; exact ih d hd e he
              | some f =>
                  rw [hf] at he
                  refine ih _ ?_ e he
                  intro e' he'
                  cases hd0 : d.savedError with
                  | some e0 =>
                      have hkeep : (storeField d f v0).savedError = some e0 := by
                        cases f <;> cases v0 <;>
                          simp [storeField, decodeState.saveError, hd0]
                        case errcode.num l =>
                          cases parseInt64 l <;> simp [decodeState.saveError, hd0]
                      rw [hkeep] at he'
                      cases he'
                      exact hd _ hd0
                  | none =>
                      cases f <;> cases v0 <;>
                        simp [storeField, decodeState.saveError, hd0] at he' <;>
                        first
                          | exact ⟨_, _, he'.symm⟩
                          | skip
                      case errcode.num l =>
                        cases hp : parseInt64 l with
                        | none =>
                            simp [hp, decodeState.saveError, hd0] at he'
                            exact ⟨_, _, he'.symm⟩
                        | some n => simp [hp, hd0] at he'
        obtain ⟨val, fld, rfl⟩ := key ms ⟨⟨0, []⟩, none⟩ (by simp) e hs
        exact ⟨val, fld, rfl⟩
  · intro hv
    rcases hv with rfl | rfl <;> simp [Unmarshal, hparse, storeValue, storeMembers]
  · intro ms hv hno he
    subst hv
    have hwt : ∀ k x f, (k, x) ∈ ms → fieldOf k = some f → wellTyped f x = true := by
      intro k x f hmem hf
      cases f with
      | errcode => exact absurd hf (hno k x hmem)
      | errmsg => rcases he k x hmem hf with rfl | ⟨s, rfl⟩ <;> rfl
    have hs := storeMembers_wellTyped ms ⟨⟨0, []⟩, none⟩ hwt
    have hcode := storeMembers_Errcode 0 ms ⟨⟨0, []⟩, none⟩
      (fun k x hmem hf => absurd hf (hno k x hmem)) (Or.inl rfl)
    rw [Unmarshal_obj body ms hparse, hs]
    simp [hcode]

/-- C6 (amended): for every response body that is well-formed JSON whose
value is an array, a string, a number or a boolean, `Send` fails with a decode
failure: a type error of the decoder, or its syntax error if its scanner
refuses the body.  For every body the decoder reads as an object with a member
that cannot be stored in its field (the key is matched to errcode and the
value is not an integer in range or `null`, or the key is matched to errmsg
and the value is not a string or `null`), `Send` fails with a type error.
`Send` returns `nil`, the fields keeping their zero values, for `null` and for
`{}` (white space allowed around and inside), and for every body the decoder
reads as an object with no key matched to errcode and only strings or `null`
under the keys matched to errmsg. -/
theorem Send_wrong_shape (now : Int) (post : Transport) (r : Robot) (msg : GoVal)
    (m body : Bytes) (hm : Marshal msg = .ok m) (hp : delivers post body) :
    (∀ a t b, IsWS a → IsValue t → IsWS b → body = a ++ t ++ b →
        t.head? ≠ some 123 → t ≠ [110, 117, 108, 108] →
        (r.Send now post msg).err = some .syntaxError
          ∨ ∃ val, (r.Send now post msg).err = some (.unmarshalType val []))
      ∧ (∀ ms, parseJSON body = some (.obj ms) →
          (∃ k x f, (k, x) ∈ ms ∧ fieldOf k = some f ∧ wellTyped f x = false) →
          ∃ val fld, (r.Send now post msg).err = some (.unmarshalType val fld))
      ∧ (∀ a w b, IsWS a → IsWS w → IsWS b →
          body = a ++ [110, 117, 108, 108] ++ b ∨ body = a ++ 123 :: w ++ 125 :: b →
          (r.Send now post msg).err = none)
      ∧ (∀ ms, parseJSON body = some (.obj ms) →
          (∀ k x, (k, x) ∈ ms → fieldOf k ≠ some .errcode) →
          (∀ k x, (k, x) ∈ ms → fieldOf k = some .errmsg → x = .null ∨ ∃ s, x = .str s) →
          (r.Send now post msg).err = none) := by
  refine ⟨?_, ?_, ?_, ?_⟩
  · intro a t b ha ht hb hbody hobj hnull
    cases hparse : parseJSON body with
    | none =>
        left
        rw [Send_err now post r msg m body hm hp]
        simp [Unmarshal, hparse]
    | some v =>
        right
        obtain ⟨c, t', rfl, hkind⟩ := IsValue_head t ht
        have hc123 : c ≠ 123 := by simpa using hobj
        have hc110 : c ≠ 110 := by
          intro hc
          rcases hkind with ⟨-, hn⟩ | hk
          · exact hnull hn
          · omega
        have hsp : isSpace c = false := by
          have : c ≠ 32 ∧ c ≠ 9 ∧ c ≠ 13 ∧ c ≠ 10 := by
            rcases hkind with ⟨hc, -⟩ | hk <;> omega
          simp [isSpace, this]
        have hsk : skipSpace body = c :: (t' ++ b) := by
          rw [hbody, List.append_assoc, skipSpace_append_ws _ _ ha]
          exact skipSpace_cons _ _ hsp
        have hscan : ∃ rest, scanValue (body.length + 1) 0 body = some (v, rest) := by
          unfold parseJSON at hparse
          cases hs : scanValue (body.length + 1) 0 body with
          | none => rw [hs] at hparse; cases hparse
          | some p =>
              obtain ⟨v1, rest⟩ := p
              rw [hs] at hparse
              dsimp only at hparse
              split_ifs at hparse
              simp only [Option.some.injEq] at hparse
              exact ⟨rest, by rw [hparse]⟩
        obtain ⟨rest, hscan⟩ := hscan
        have hv := scanValue_kind _ _ c body _ rest v hscan hsk hc123 hc110
        have key := (Send_of_parsed now post r msg m body v hm hp hparse).1
        apply key
        · intro ms hms
          rcases hv with ⟨xs, rfl⟩ | ⟨s, rfl⟩ | ⟨b', rfl⟩ | ⟨l, rfl⟩ <;> cases hms
        · intro hn
          rcases hv with ⟨xs, rfl⟩ | ⟨s, rfl⟩ | ⟨b', rfl⟩ | ⟨l, rfl⟩ <;> cases hn
  · intro ms hparse hbad
    exact (Send_of_parsed now post r msg m body _ hm hp hparse).2.1 ms rfl hbad
  · intro a w b ha hw hb hbody
    rcases hbody with rfl | rfl
    · exact (Send_of_parsed now post r msg m _ _ hm hp (parseJSON_null a b ha hb)).2.2.1
        (Or.inl rfl)
    · exact (Send_of_parsed now post r msg m _ _ hm hp
        (parseJSON_emptyObject a w b ha hw hb)).2.2.1 (Or.inr rfl)
  · intro ms hparse hno he
    exact (Send_of_parsed now post r msg m body _ hm hp hparse).2.2.2 ms rfl hno he

theorem Send_wrong_shape_witness :
    IsValue (lit "[1]")
      ∧ (((NewRobot (lit "u")).Send 0 (fun _ => .ok ⟨200, .ok (lit "[1]")⟩)
            (.str (lit "hi"))).err = some .syntaxError
          ∨ ∃ val, ((NewRobot (lit "u")).Send 0 (fun _ => .ok ⟨200, .ok (lit "[1]")⟩)
            (.str (lit "hi"))).err = some (.unmarshalType val [])) :=
  have hv : IsValue (lit "[1]") :=
    IsValue.array [49] (IsElements.one [] [49] [] IsWS_nil
      (IsValue.number [49] ⟨[], [49], [], [], rfl, Or.inl rfl,
        Or.inr ⟨⟨by simp, by simp⟩, by simp⟩, Or.inl rfl, Or.inl rfl⟩) IsWS_nil)
  ⟨hv,
    (Send_wrong_shape 0 (fun _ => .ok ⟨200, .ok (lit "[1]")⟩)
      (NewRobot (lit "u")) (.str (lit "hi")) (lit "\"hi\"") (lit "[1]")
      rfl (fun _ => ⟨200, rfl⟩)).1 [] (lit "[1]") [] IsWS_nil hv IsWS_nil (by simp)
      (by decide) (by decide)⟩

end Dingrobot
